import Mathlib

/-!
Verification of the feldspar voxel-map core against its specification.

The Rust sources under `crates/feldspar-map` are shallowly embedded:
pure functions become Lean functions over `Nat`/`Int`/`ℚ`, stateful
database code becomes explicit state passing on a `MapDb` state record,
and fallible code returns `Option` or an explicit result type.
Floating-point (`f32`) computations are modelled by exact rational
arithmetic; every concrete input used in a theorem below is exactly
representable in `f32` and all intermediate results of the modelled
expressions are exact at those inputs.
-/

namespace Feldspar

/-! ### Fixed-point SDF (src/crates/feldspar-map/src/sdf.rs)

Source, `impl_fixed_precision!` with `primitive: i8`, `max: 1.0`:
`RESOLUTION = i8::MAX as f32 = 127.0`, and
`From<f32> for Sd8: Sd8((Self::RESOLUTION * s.min(1.0).max(-1.0)) as i8)`.
`Sd8::MIN = Sd8(-127)`, `Sd8::MAX = Sd8(127)`. -/

/-- Truncation toward zero, the rounding used by Rust `as` casts from float
to integer. -/
def ratTruncInt (q : ℚ) : ℤ := if 0 ≤ q then ⌊q⌋ else ⌈q⌉

/-- Saturation of an integer into the `i8` range, as performed by Rust
float-to-`i8` `as` casts. -/
def i8Sat (n : ℤ) : ℤ := max (-128) (min 127 n)

/-- Rust `q as i8` for a float value `q` (modelled on `ℚ`): truncate toward
zero, then saturate to the `i8` range. -/
def i8CastF (q : ℚ) : ℤ := i8Sat (ratTruncInt q)

/-- `Sd8::RESOLUTION = i8::MAX as f32`. -/
def sd8Resolution : ℚ := 127

/-- `Sd8::from(s)` from sdf.rs: `(RESOLUTION * s.min(1.0).max(-1.0)) as i8`.
Rust `s.min(1.0)` is `min s 1` and `.max(-1.0)` is `max _ (-1)`. -/
def sd8From (s : ℚ) : ℤ := i8CastF (sd8Resolution * max (min s 1) (-1))

/-- The conversion as the spec words it: `round(clamp(x, -1, 1) * 127)`. -/
def sd8FromSpec (s : ℚ) : ℤ := round (max (min s 1) (-1) * 127)

/-- `Sd8::MAX = Sd8(i8::MAX) = 127`. -/
def sd8MAX : ℤ := 127

/-- `Sd8::MIN = Sd8(-i8::MAX) = -127`. -/
def sd8MIN : ℤ := -127

/-! ### ChunkDbKey serialization (src/crates/feldspar-map/src/database/chunk_key.rs) -/

/-- Big-endian byte decomposition of a natural number into `n` bytes
(most significant byte first), modelling `u128::to_be_bytes` and friends. -/
def beBytes : ℕ → ℕ → List ℕ
  | 0, _ => []
  | n + 1, a => a / 256 ^ n :: beBytes n (a % 256 ^ n)

/-- Big-endian byte recomposition, modelling `u128::from_be_bytes`. -/
def fromBeBytes (l : List ℕ) : ℕ := l.foldl (fun acc b => 256 * acc + b) 0

/-- `ChunkDbKey` from chunk_key.rs: a `level: u8` and a Morton code held in
the low 96 bits of a `u128` (`Morton3i32`). -/
structure ChunkDbKey where
  level : ℕ
  morton : ℕ
deriving DecidableEq, Repr

/-- `ChunkDbKey::into_sled_key`: 13 bytes, `bytes[0] = level` and
`bytes[1..] = morton.0.to_be_bytes()[4..]` (the low 12 of the 16
big-endian bytes of the `u128`). -/
def ChunkDbKey.into_sled_key (k : ChunkDbKey) : List ℕ :=
  k.level :: (beBytes 16 k.morton).drop 4

/-- `ChunkDbKey::from_sled_key`: `level = bytes[0]`, and the morton `u128` is
rebuilt from 4 zero bytes followed by `bytes[1..]`. -/
def ChunkDbKey.from_sled_key (bytes : List ℕ) : ChunkDbKey :=
  ⟨bytes.headD 0, fromBeBytes (List.replicate 4 0 ++ bytes.tail)⟩

/-! ### Chunk compression (src/crates/feldspar-map/src/chunk.rs)

`Chunk::compress` streams the 8192 raw bytes of the chunk (4096 sdf bytes
followed by 4096 palette-id bytes, the in-memory layout certified by
`const_assert_eq!(mem::size_of::<Chunk>(), 8192)`) through an LZ4 frame
encoder; `Chunk::from_compressed_bytes` decodes into a fresh 8192-byte
buffer. -/

/-- Modelled from the spec: the LZ4 frame codec itself lives in the external
`lz4_flex` crate, not in this repository; per the spec it is "an LZ4
frame-encoded byte stream of exactly 8192 uncompressed bytes", i.e. an
invertible encoding of the raw byte stream. The model encodes the stream
as length-prefixed literal blocks of at most 255 bytes (the shape of an
LZ4 sequence with no matches); a zero length byte terminates the frame. -/
def lz4FrameEncode : List ℕ → List ℕ
  | [] => [0]
  | a :: t =>
    ((a :: t).take 255).length :: (((a :: t).take 255) ++ lz4FrameEncode ((a :: t).drop 255))
termination_by data => data.length
decreasing_by
  simp only [List.length_drop, List.length_cons]
  omega

/-- Modelled from the spec: decoder for `lz4FrameEncode`'s frames. -/
def lz4FrameDecode (bytes : List ℕ) : List ℕ :=
  match bytes with
  | [] => []
  | 0 :: _ => []
  | (n + 1) :: rest => rest.take (n + 1) ++ lz4FrameDecode (rest.drop (n + 1))
termination_by bytes.length
decreasing_by
  simp only [List.length_drop, List.length_cons]
  omega

/-- `Chunk` from chunk.rs: 4096 sdf bytes and 4096 palette-id bytes, each
modelled as a raw byte list (`bytes_of` reinterprets `Sd8` as its byte). -/
structure Chunk where
  sdf : List ℕ
  palette_ids : List ℕ
deriving DecidableEq, Repr

/-- Wellformedness of the fixed chunk shape: both arrays hold exactly
16·16·16 = 4096 entries. -/
def Chunk.WF (c : Chunk) : Prop := c.sdf.length = 4096 ∧ c.palette_ids.length = 4096

/-- `bytemuck::bytes_of(self)`: the 8192 raw bytes, sdf array first. -/
def Chunk.bytesOf (c : Chunk) : List ℕ := c.sdf ++ c.palette_ids

/-- `Chunk::compress`: LZ4-frame-encode the 8192 raw bytes. The result is
the `bytes` field of the `CompressedChunk`. -/
def Chunk.compress (c : Chunk) : List ℕ := lz4FrameEncode c.bytesOf

/-- `Chunk::from_compressed_bytes`: decode into a fresh 8192-byte chunk laid
out identically. `io::copy` into the fixed `bytes_of_mut` buffer panics
(`unwrap`) if the decoded stream overflows 8192 bytes, hence `Option`;
if the stream is shorter the zero-initialized tail remains. -/
def Chunk.from_compressed_bytes (bytes : List ℕ) : Option Chunk :=
  let d := lz4FrameDecode bytes
  if d.length > 8192 then none
  else
    let filled := d ++ List.replicate (8192 - d.length) 0
    some ⟨filled.take 4096, (filled.drop 4096).take 4096⟩

/-- `CompressedChunk::decompress` (on the model's compressed byte list). -/
def decompress (bytes : List ℕ) : Option Chunk := Chunk.from_compressed_bytes bytes

/-! ### Change and ChangeEncoder (src/crates/feldspar-map/src/database/change_encoder.rs) -/

/-- `Change<T>` from change_encoder.rs. -/
inductive Change (V : Type) where
  | Insert (value : V)
  | Remove
deriving DecidableEq, Repr

/-- Key order on `ChunkDbKey`: the derived `Ord` compares fields in
declaration order, `level` first and then the `u128` morton code. -/
def ChunkDbKey.keyLe (a b : ChunkDbKey) : Bool :=
  a.level < b.level || (a.level = b.level && a.morton ≤ b.morton)

/-- Strict key order on `ChunkDbKey` (derived `Ord`, `Ordering::Less`). -/
def ChunkDbKey.keyLt (a b : ChunkDbKey) : Bool :=
  a.level < b.level || (a.level = b.level && a.morton < b.morton)

/-- `ChangeEncoder::add_compressed_change`: `HashMap::insert`, overwriting
any previous change for the same key. The hash map is modelled as an
association list with at most one entry per key. -/
def addCompressedChange {V : Type} :
    List (ChunkDbKey × Change V) → ChunkDbKey → Change V → List (ChunkDbKey × Change V)
  | [], k, c => [(k, c)]
  | (k', c') :: t, k, c =>
    if k' = k then (k, c) :: t else (k', c') :: addCompressedChange t k c

/-- `ChangeEncoder` state after a sequence of `add_compressed_change` calls
starting from `ChangeEncoder::default()`. -/
def encoderOfAdds {V : Type} (adds : List (ChunkDbKey × Change V)) :
    List (ChunkDbKey × Change V) :=
  adds.foldl (fun m kc => addCompressedChange m kc.1 kc.2) []

/-- Insertion step of the sort used to model `changes.sort_by_key(|(key, _)| *key)`. -/
def sortedInsert {V : Type} (p : ChunkDbKey × Change V) :
    List (ChunkDbKey × Change V) → List (ChunkDbKey × Change V)
  | [] => [p]
  | q :: t => if ChunkDbKey.keyLe p.1 q.1 then p :: q :: t else q :: sortedInsert p t

/-- `Vec::sort_by_key` on the collected entries (a comparison sort; any
comparison sort of a list with pairwise-distinct keys yields the same
result, so insertion sort is a faithful model). -/
def sortByKey {V : Type} : List (ChunkDbKey × Change V) → List (ChunkDbKey × Change V)
  | [] => []
  | p :: t => sortedInsert p (sortByKey t)

/-- `ChangeEncoder::encode`: collect the buffered map entries and sort them
by key. (Value serialization is kept abstract; the emitted sled keys are
`into_sled_key` of the sorted keys.) -/
def ChangeEncoder.encode {V : Type} (added_changes : List (ChunkDbKey × Change V)) :
    List (ChunkDbKey × Change V) :=
  sortByKey added_changes

/-- The last change added for a key during a sequence of adds, if any:
the value `encode` must emit for that key. -/
def lastAdded {V : Type} (adds : List (ChunkDbKey × Change V)) (k : ChunkDbKey) :
    Option (Change V) :=
  adds.foldl (fun acc kc => if kc.1 = k then some kc.2 else acc) none

/-- Strict lexicographic order on byte strings: the on-disk `sled` key order. -/
def bytesLt : List ℕ → List ℕ → Bool
  | [], [] => false
  | [], _ :: _ => true
  | _ :: _, [] => false
  | a :: as', b :: bs' => a < b || (a = b && bytesLt as' bs')

/-- First-match lookup in an association list keyed by `ChunkDbKey`. -/
def assocLookup {A : Type} : List (ChunkDbKey × A) → ChunkDbKey → Option A
  | [], _ => none
  | (k', a) :: t, k => if k = k' then some a else assocLookup t k

/-- The reverse change recorded for a previous working-tree value: the old
value re-inserted, or a `Remove` sentinel when there was none
(working_tree.rs, the `reverse_changes.push` arms). -/
def oldChange {V : Type} : Option V → Change V
  | some v => .Insert v
  | none => .Remove

/-! ### Versions and the version graph
(src/crates/feldspar-map/src/database.rs,
 src/crates/feldspar-map/src/database/version_graph_tree.rs) -/

/-- `Version` from database.rs: a `u64` id minted by the id generator. -/
structure Version where
  number : ℕ
deriving DecidableEq, Repr, Inhabited

/-- `VersionNode` from version_graph_tree.rs. -/
structure VersionNode where
  parent_version : Option Version
deriving DecidableEq, Repr

/-- `AbortReason` from database.rs. -/
inductive AbortReason where
  | NoPathExists
  | NoPathExistsToRoot
  | MissingVersionChanges
deriving DecidableEq, Repr

/-- The version-graph sled tree, as a map from version to node. -/
def VersionGraph : Type := Version → Option VersionNode

/-- `PathResult` from version_graph_tree.rs. -/
inductive PathResult where
  | FoundRoot
  | FoundEnd
deriving DecidableEq, Repr

/-- `VersionPath` from version_graph_tree.rs. -/
structure VersionPath where
  path : List Version
  end_parent : Option Version
deriving DecidableEq, Repr

/-- Outcome of a graph walk. `outOfFuel` marks runs of the embedded loop
that exceed the fuel bound; on an acyclic graph with enough fuel it never
occurs (the Rust loop would diverge only on a cyclic graph). -/
inductive WalkOutcome where
  | outOfFuel
  | err (r : AbortReason)
  | ok (pr : PathResult) (vp : VersionPath)
deriving DecidableEq, Repr

/-- The loop of `find_ancestor_path`: `path` already contains every visited
version including `current`; each step reads `current`'s node, aborts with
`NoPathExistsToRoot` if it is missing, returns `FoundEnd` when `current`
is the target, otherwise follows (and appends) the parent or returns
`FoundRoot` when there is none. -/
def findAncestorPathGo (g : VersionGraph) (end_version : Version) :
    ℕ → Version → List Version → WalkOutcome
  | 0, _, _ => .outOfFuel
  | fuel + 1, current, path =>
    match g current with
    | none => .err .NoPathExistsToRoot
    | some node =>
      if current = end_version then .ok .FoundEnd ⟨path, node.parent_version⟩
      else
        match node.parent_version with
        | some parent => findAncestorPathGo g end_version fuel parent (path ++ [parent])
        | none => .ok .FoundRoot ⟨path, none⟩

/-- `find_ancestor_path` from version_graph_tree.rs: walk ancestors from
`start_version`, stopping at `end_version` or at the root. -/
def find_ancestor_path (fuel : ℕ) (g : VersionGraph) (start_version end_version : Version) :
    WalkOutcome :=
  findAncestorPathGo g end_version fuel start_version [start_version]

/-- Outcome of `find_path_between_versions`. -/
inductive PathOutcome where
  | outOfFuel
  | err (r : AbortReason)
  | ok (vp : VersionPath)
deriving DecidableEq, Repr

/-- The join-finding loop of `find_path_between_versions`: iterate over the
zipped reversed enumerations of both paths, keeping the indices of the
last equal pair and stopping at the first unequal pair. -/
def joinsGo : List ((ℕ × Version) × (ℕ × Version)) → ℕ × ℕ → ℕ × ℕ
  | [], acc => acc
  | ((i1, v1), (i2, v2)) :: rest, acc =>
    if v1 ≠ v2 then acc else joinsGo rest (i1, i2)

/-- `start_join` and `finish_join` as computed by the source loop (both
start at 0). -/
def computeJoins (sp ep : List Version) : ℕ × ℕ :=
  joinsGo (sp.enum.reverse.zip ep.enum.reverse) (0, 0)

/-- Enumeration of a reversed list with the original indices: each element
is paired with the length of what follows it, so
`(l.enumFrom i).reverse = downEnumFrom i l.reverse`. -/
def downEnumFrom (i : ℕ) : List Version → List (ℕ × Version)
  | [] => []
  | a :: t => (i + t.length, a) :: downEnumFrom i t

/-- Length of the longest common prefix of two lists (the number of leading
equal pairs the join loop consumes when fed the reversed paths). -/
def commonAgree : List Version → List Version → ℕ
  | a :: as, b :: bs => if a = b then commonAgree as bs + 1 else 0
  | _, _ => 0

/-- `find_path_between_versions` from version_graph_tree.rs. -/
def find_path_between_versions (fuel : ℕ) (g : VersionGraph)
    (start_version end_version : Version) : PathOutcome :=
  match find_ancestor_path fuel g start_version end_version with
  | .outOfFuel => .outOfFuel
  | .err r => .err r
  | .ok .FoundEnd vp => .ok vp
  | .ok .FoundRoot sp =>
    let start_root_version := sp.path.getLast!
    match find_ancestor_path fuel g end_version start_root_version with
    | .outOfFuel => .outOfFuel
    | .err r => .err r
    | .ok _pr ep =>
      let end_root_version := ep.path.getLast!
      if start_root_version ≠ end_root_version then .err .NoPathExists
      else
        let joins := computeJoins sp.path ep.path
        .ok ⟨sp.path.take (joins.1 + 1) ++ (ep.path.take joins.2).reverse, ep.end_parent⟩

/-! Denotational graph-walk predicates used to state claim C4 without
referring to the walk loop itself. `t` is the target version at which a
walk stops early. -/

/-- The parent of `v` recorded in the graph, if `v` has an entry with a
parent. -/
def parentOf (g : VersionGraph) (v : Version) : Option Version :=
  (g v).bind VersionNode.parent_version

/-- Walking the ancestor chain from `v` (stopping early at `t`) reaches a
version with no entry in the graph. -/
inductive ReachesMissing (g : VersionGraph) (t : Version) : Version → Prop where
  | base {v : Version} : g v = none → ReachesMissing g t v
  | step {v p : Version} {n : VersionNode} : g v = some n → v ≠ t →
      n.parent_version = some p → ReachesMissing g t p → ReachesMissing g t v

/-- Walking the ancestor chain from `v` (stopping early at `t`) reaches the
root `r` (an entry with no parent) without meeting `t`. -/
inductive ReachesRoot (g : VersionGraph) (t : Version) : Version → Version → Prop where
  | base {v : Version} {n : VersionNode} : g v = some n → v ≠ t →
      n.parent_version = none → ReachesRoot g t v v
  | step {v p r : Version} {n : VersionNode} : g v = some n → v ≠ t →
      n.parent_version = some p → ReachesRoot g t p r → ReachesRoot g t v r

/-- Walking the ancestor chain from `v` meets the target `t` (which has an
entry in the graph). -/
inductive FindsTarget (g : VersionGraph) (t : Version) : Version → Prop where
  | base {n : VersionNode} : g t = some n → FindsTarget g t t
  | step {v p : Version} {n : VersionNode} : g v = some n → v ≠ t →
      n.parent_version = some p → FindsTarget g t p → FindsTarget g t v

/-- `c` is an ancestor of `a` (or `a` itself) through parent links that are
all present in the graph. -/
inductive Ancestor (g : VersionGraph) : Version → Version → Prop where
  | refl {a : Version} : Ancestor g a a
  | step {a p c : Version} : parentOf g a = some p → Ancestor g p c → Ancestor g a c

/-! ### The map database (src/crates/feldspar-map/src/database.rs and the
working/backup tree modules) -/

/-- Pointwise update of a map modelled as a function (a sled
`insert`/`remove` at one key). -/
def fupdate {K : Type} [DecidableEq K] {B : Type} (f : K → B) (k : K) (v : B) : K → B :=
  fun k' => if k' = k then v else f k'

/-- Applying a `Change` at a key: the value an `Insert` leaves in a tree at
that key, or `none` for a `Remove`. -/
def applyChange {V : Type} : Change V → Option V
  | .Insert v => some v
  | .Remove => none

/-- `MapDbMetadata` from meta_tree.rs. -/
structure MapDbMetadata where
  grandparent_version : Option Version
  parent_version : Option Version
  working_version : Version
deriving DecidableEq, Repr

/-- The `MapDb` state: the five sled trees, the in-memory backup key cache
and cached metadata, plus the monotone id generator (`generate_id`).
Working-tree values are the `Insert` payloads (the working table only
ever stores `Insert` changes); the backup tree stores whole changes.
`VersionChanges` is modelled as its key-ordered entry list. -/
structure MapDb (V : Type) where
  meta : MapDbMetadata
  working_tree : ChunkDbKey → Option V
  backup_tree : ChunkDbKey → Option (Change V)
  version_change_tree : Version → Option (List (ChunkDbKey × Change V))
  version_graph_tree : VersionGraph
  backup_key_cache : List ChunkDbKey
  next_id : ℕ

/-- `write_changes_to_working_tree` from working_tree.rs: apply each encoded
change to the working tree, capturing the previous value; keys already in
the backup key cache contribute no reverse change, the rest contribute
their previous value (or a `Remove` sentinel when absent). Returns the
updated working tree and the reverse changes in iteration order. -/
def writeChangesToWorkingTree {V : Type} (working : ChunkDbKey → Option V)
    (cache : List ChunkDbKey) :
    List (ChunkDbKey × Change V) → (ChunkDbKey → Option V) × List (ChunkDbKey × Change V)
  | [] => (working, [])
  | (k, ch) :: rest =>
    let old := working k
    let working1 :=
      match ch with
      | .Insert v => fupdate working k (some v)
      | .Remove => fupdate working k none
    let res := writeChangesToWorkingTree working1 cache rest
    if k ∈ cache then res
    else
      (res.1, (k, match old with | some v => Change.Insert v | none => Change.Remove) :: res.2)

/-- `write_changes_to_backup_tree` from backup_tree.rs: insert every reverse
change into the backup tree. -/
def writeChangesToBackupTree {V : Type} (backup : ChunkDbKey → Option (Change V))
    (revs : List (ChunkDbKey × Change V)) : ChunkDbKey → Option (Change V) :=
  revs.foldl (fun b kc => fupdate b kc.1 (some kc.2)) backup

/-- `MapDb::write_working_version`: one transaction writing `changes` to the
working tree and the reverse changes to the backup tree, then adding the
new backup keys to the cache. -/
def MapDb.write_working_version {V : Type} (db : MapDb V)
    (changes : List (ChunkDbKey × Change V)) : MapDb V :=
  let wr := writeChangesToWorkingTree db.working_tree db.backup_key_cache changes
  { db with
    working_tree := wr.1
    backup_tree := writeChangesToBackupTree db.backup_tree wr.2
    backup_key_cache := db.backup_key_cache ++ wr.2.map Prod.fst }

/-- `commit_backup` from backup_tree.rs: drain the backup entries at the
cached keys in order; a cached key with no backup entry is a panic
(`BUG: failed to get change backup`), modelled as `none`. -/
def commitBackup {V : Type} (backup : ChunkDbKey → Option (Change V)) :
    List ChunkDbKey → Option (List (ChunkDbKey × Change V))
  | [] => some []
  | k :: ks =>
    match backup k with
    | none => none
    | some c => (commitBackup backup ks).map (fun t => (k, c) :: t)

/-- `clear_backup` from backup_tree.rs: remove every cached key from the
backup tree (`commit_backup` removes the same keys while draining). -/
def clearBackup {V : Type} (backup : ChunkDbKey → Option (Change V))
    (keys : List ChunkDbKey) : ChunkDbKey → Option (Change V) :=
  fun k => if k ∈ keys then none else backup k

/-- Result of a database transaction: a panic, an exhausted walk fuel bound,
a transaction abort, or the new state. -/
inductive DbResult (V : Type) where
  | panicked
  | outOfFuel
  | aborted (r : AbortReason)
  | ok (db : MapDb V)

/-- `MapDb::commit_working_version`: no-op on an empty backup key cache;
otherwise archive the drained backup under the parent version (or, on the
first ever commit, just clear the backup), link the working version into
the version graph with the parent as its parent, and advance the
metadata. -/
def MapDb.commit_working_version {V : Type} (db : MapDb V) : DbResult V :=
  if db.backup_key_cache = [] then .ok db
  else
    let graph1 :=
      fupdate db.version_graph_tree db.meta.working_version
        (some ⟨db.meta.parent_version⟩)
    let meta1 : MapDbMetadata :=
      ⟨db.meta.parent_version, some db.meta.working_version, ⟨db.next_id⟩⟩
    match db.meta.parent_version with
    | some parent =>
      match commitBackup db.backup_tree db.backup_key_cache with
      | none => .panicked
      | some drained =>
        .ok { db with
              meta := meta1
              backup_tree := clearBackup db.backup_tree db.backup_key_cache
              version_change_tree := fupdate db.version_change_tree parent (some drained)
              version_graph_tree := graph1
              backup_key_cache := []
              next_id := db.next_id + 1 }
    | none =>
      .ok { db with
            meta := meta1
            backup_tree := clearBackup db.backup_tree db.backup_key_cache
            version_graph_tree := graph1
            backup_key_cache := []
            next_id := db.next_id + 1 }

/-- The replay loop of `branch_from_version`: for each consecutive pair
`(prev, next)` along the path, remove `next`'s archived delta (aborting
with `MissingVersionChanges` when absent), re-encode it, write it to the
working tree with an empty backup key cache, and archive the reverse
changes under `prev`. -/
def branchReplay {V : Type} :
    List (Version × Version) → (ChunkDbKey → Option V) →
    (Version → Option (List (ChunkDbKey × Change V))) →
    Except AbortReason ((ChunkDbKey → Option V) × (Version → Option (List (ChunkDbKey × Change V))))
  | [], working, vc => .ok (working, vc)
  | (prev, next) :: rest, working, vc =>
    match vc next with
    | none => .error .MissingVersionChanges
    | some changes =>
      let vc1 := fupdate vc next none
      let encoded := ChangeEncoder.encode (encoderOfAdds changes)
      let wr := writeChangesToWorkingTree working [] encoded
      branchReplay rest wr.1 (fupdate vc1 prev (some wr.2))

/-- `MapDb::branch_from_version`: commit outstanding changes, then (only
when a parent exists) find the path from the old parent to
`new_parent_version`, replay the archived deltas along it, and advance
the metadata to the new parent. -/
def MapDb.branch_from_version {V : Type} (fuel : ℕ) (db : MapDb V)
    (new_parent_version : Version) : DbResult V :=
  match db.commit_working_version with
  | .panicked => .panicked
  | .outOfFuel => .outOfFuel
  | .aborted r => .aborted r
  | .ok db1 =>
    match db1.meta.parent_version with
    | none => .ok db1
    | some old_parent =>
      match find_path_between_versions fuel db1.version_graph_tree old_parent
          new_parent_version with
      | .outOfFuel => .outOfFuel
      | .err r => .aborted r
      | .ok vp =>
        match branchReplay (vp.path.zip vp.path.tail) db1.working_tree
            db1.version_change_tree with
        | .error r => .aborted r
        | .ok wvc =>
          .ok { db1 with
                meta := ⟨vp.end_parent, some new_parent_version, ⟨db1.next_id⟩⟩
                working_tree := wvc.1
                version_change_tree := wvc.2
                next_id := db1.next_id + 1 }

/-! ### Clipmap broad-phase load search
(src/crates/feldspar-map/src/clipmap/streaming/load_search.rs,
 src/crates/feldspar-map/src/coordinates.rs,
 src/crates/feldspar-core/src/geometry.rs)

The `f32` vector geometry is modelled on exact rationals. The only
irrational quantity, the `√3` factor of `chunk_bounding_sphere`'s radius,
is carried symbolically: the comparison `dist - k·√3 < R` is decided by
exact case analysis on rationals (`distLtRadius`), which agrees with the
real-number comparison whenever `0 ≤ k` and `0 ≤ R`. -/

/-- `IVec3` (glam), as a triple of integers. -/
structure IV3 where
  x : ℤ
  y : ℤ
  z : ℤ
deriving DecidableEq, Repr

/-- `Vec3A` (glam), as a triple of rationals. -/
structure QV3 where
  x : ℚ
  y : ℚ
  z : ℚ
deriving DecidableEq, Repr

/-- `as_vec3a()` on an integer vector. -/
def IV3.toQ (v : IV3) : QV3 := ⟨v.x, v.y, v.z⟩

/-- Componentwise `<<` (no overflow in the modelled range). -/
def IV3.shl (v : IV3) (n : ℕ) : IV3 := ⟨v.x * 2 ^ n, v.y * 2 ^ n, v.z * 2 ^ n⟩

/-- Componentwise arithmetic `>>` on `i32`: floor division by `2^n`. -/
def IV3.sar (v : IV3) (n : ℕ) : IV3 :=
  ⟨Int.fdiv v.x (2 ^ n), Int.fdiv v.y (2 ^ n), Int.fdiv v.z (2 ^ n)⟩

/-- Componentwise sum. -/
def IV3.add (a b : IV3) : IV3 := ⟨a.x + b.x, a.y + b.y, a.z + b.z⟩

/-- `max_element()`. -/
def IV3.maxElement (v : IV3) : ℤ := max v.x (max v.y v.z)

/-- Squared euclidean distance; `Vec3A::distance` is its square root. -/
def distSq (a b : QV3) : ℚ := (a.x - b.x) ^ 2 + (a.y - b.y) ^ 2 + (a.z - b.z) ^ 2

/-- `Extent<IVec3>` (ilattice): integer minimum and shape. -/
structure ExtentI where
  minimum : IV3
  shape : IV3
deriving DecidableEq, Repr

/-- Integer `Extent::max() = minimum + shape - 1`. -/
def ExtentI.maxv (e : ExtentI) : IV3 :=
  ⟨e.minimum.x + e.shape.x - 1, e.minimum.y + e.shape.y - 1, e.minimum.z + e.shape.z - 1⟩

/-- Integer `Extent::from_min_and_max`. -/
def extentFromMinAndMax (mn mx : IV3) : ExtentI :=
  ⟨mn, ⟨mx.x - mn.x + 1, mx.y - mn.y + 1, mx.z - mn.z + 1⟩⟩

/-- `chunk_extent_at_level_ivec3` from coordinates.rs:
`min = coords << level`, `shape = CHUNK_SHAPE << level`. -/
def chunk_extent_at_level_ivec3 (level : ℕ) (coordinates : IV3) : ExtentI :=
  ⟨coordinates.shl level, (IV3.mk 16 16 16).shl level⟩

/-- `descendant_extent` from coordinates.rs: `extent << levels_down`. -/
def descendant_extent (levels_down : ℕ) (e : ExtentI) : ExtentI :=
  ⟨e.minimum.shl levels_down, e.shape.shl levels_down⟩

/-- `ancestor_extent` from coordinates.rs:
`from_min_and_max(min >> levels_up, max >> levels_up)`. -/
def ancestor_extent (levels_up : ℕ) (e : ExtentI) : ExtentI :=
  extentFromMinAndMax (e.minimum.sar levels_up) (e.maxv.sar levels_up)

/-- `in_chunk_extent` from coordinates.rs: `from_min_and_max(min >> 4, max >> 4)`. -/
def in_chunk_extent (e : ExtentI) : ExtentI :=
  extentFromMinAndMax (e.minimum.sar 4) (e.maxv.sar 4)

/-- The center of `chunk_bounding_sphere(level, coords)`:
`lod0_extent.minimum + (lod0_extent.shape >> 1)` where
`lod0_extent = descendant_extent(level, chunk_extent_at_level_ivec3(level, coords))`. -/
def chunkBoundingSphereCenter (level : ℕ) (coordinates : IV3) : IV3 :=
  let lod0 := descendant_extent level (chunk_extent_at_level_ivec3 level coordinates)
  lod0.minimum.add (lod0.shape.sar 1)

/-- The radius of `chunk_bounding_sphere(level, coords)` is `k·√3` with
`k = lod0_extent.shape.max_element() >> 1`. -/
def chunkBoundingSphereK (level : ℕ) (coordinates : IV3) : ℤ :=
  let lod0 := descendant_extent level (chunk_extent_at_level_ivec3 level coordinates)
  Int.fdiv lod0.shape.maxElement 2

/-- A clip sphere (`Sphere::new(observer, clip_radius)`): rational center and
radius. -/
structure QSphere where
  center : QV3
  radius : ℚ
deriving DecidableEq, Repr

/-- Modelled from the spec: ilattice's `containing_integer_extent` on the
sphere's float AABB (`Sphere::aabb`, geometry.rs: `min = center - r`,
`shape = 2r`, float `max() = min + shape`); the external ilattice crate
is not in src/. The smallest integer extent containing the float box is
`from_min_and_max(floor(min), floor(max))`. -/
def sphereContainingIntegerExtent (s : QSphere) : ExtentI :=
  let mn : IV3 := ⟨⌊s.center.x - s.radius⌋, ⌊s.center.y - s.radius⌋, ⌊s.center.z - s.radius⌋⟩
  let mx : IV3 := ⟨⌊s.center.x + s.radius⌋, ⌊s.center.y + s.radius⌋, ⌊s.center.z + s.radius⌋⟩
  extentFromMinAndMax mn mx

/-- `sphere_intersecting_ancestor_chunk_extent` from coordinates.rs. -/
def sphere_intersecting_ancestor_chunk_extent (s : QSphere) (level : ℕ) : ExtentI :=
  ancestor_extent level (in_chunk_extent (sphereContainingIntegerExtent s))

/-- Decides `√D < R + k√3` over the reals, for `0 ≤ D`, `0 ≤ R`, `0 ≤ k`
(see `distLtRadius_iff`). This is the exact semantics of the source's
`dist - node_radius < clip_radius` with `dist = √D` and
`node_radius = k·√3`. -/
def distLtRadius (D R k : ℚ) : Bool :=
  decide (D - R ^ 2 - 3 * k ^ 2 < 0) ||
    decide ((D - R ^ 2 - 3 * k ^ 2) ^ 2 < 3 * (2 * R * k) ^ 2)

/-- `root_sphere.center.distance(clip.center) - root_sphere.radius < clip.radius`
for the chunk bounding sphere of `(level, coords)` against a clip sphere. -/
def nodeIntersectsSphere (clip : QSphere) (level : ℕ) (coordinates : IV3) : Bool :=
  distLtRadius (distSq (chunkBoundingSphereCenter level coordinates).toQ clip.center)
    clip.radius ((chunkBoundingSphereK level coordinates) : ℚ)

/-- Integer range `[a, a + n)` in increasing order. -/
def intRange (a : ℤ) (n : ℕ) : List ℤ := (List.range n).map (fun i => a + i)

/-- Modelled from the spec: ilattice's `Extent::iter3` (external crate, not
in src/) yields every point of the extent, `x` varying fastest. -/
def extentIter3 (e : ExtentI) : List IV3 :=
  (intRange e.minimum.z e.shape.z.toNat).flatMap fun z =>
    (intRange e.minimum.y e.shape.y.toNat).flatMap fun y =>
      (intRange e.minimum.x e.shape.x.toNat).map fun x => IV3.mk x y z

/-- The loop body of `broad_phase_load_search` over the candidate root
coordinates, returning the roots for which a load-sentinel fill is
performed. A root that fails the new-sphere test makes the whole
function `return` (the source `return` exits the function, not the loop
iteration). -/
def broadPhaseGo (old_sphere new_sphere : QSphere) (root_level : ℕ) :
    List IV3 → List IV3
  | [] => []
  | c :: rest =>
    if ¬ nodeIntersectsSphere new_sphere root_level c then []
    else if ¬ nodeIntersectsSphere old_sphere root_level c then
      c :: broadPhaseGo old_sphere new_sphere root_level rest
    else broadPhaseGo old_sphere new_sphere root_level rest

/-- `ChunkClipMap::broad_phase_load_search` from load_search.rs: iterate the
candidate root extent of the new clip sphere, inserting an empty
load-sentinel root for roots that intersect the new clip sphere but not
the old one. Returns the coordinates passed to `fill_root`. -/
def broad_phase_load_search (old_observer new_observer : QV3) (clip_radius : ℚ)
    (root_level : ℕ) : List IV3 :=
  let old_clip_sphere : QSphere := ⟨old_observer, clip_radius⟩
  let new_clip_sphere : QSphere := ⟨new_observer, clip_radius⟩
  broadPhaseGo old_clip_sphere new_clip_sphere root_level
    (extentIter3 (sphere_intersecting_ancestor_chunk_extent new_clip_sphere root_level))

/-! ### Predicates used by the claim statements -/

/-- Backup/working consistency: every cached key's backup change applies to
the parent value, and every uncached key's working value is the parent
value. `parent` is the working tree content at the last commit. -/
def backupInv {V : Type} (parent : ChunkDbKey → Option V) (db : MapDb V) : Prop :=
  (∀ k ∈ db.backup_key_cache, ∃ c, db.backup_tree k = some c ∧ applyChange c = parent k) ∧
    (∀ k, k ∉ db.backup_key_cache → db.working_tree k = parent k)

/-- Two versions are related by a parent link of the version graph, in
either direction. -/
def parentLinked (g : VersionGraph) (a b : Version) : Prop :=
  parentOf g a = some b ∨ parentOf g b = some a

/-- `m` is the nearest common ancestor of `s` and `e`: a common ancestor of
which every common ancestor is an ancestor. -/
def IsNearestCommonAncestor (g : VersionGraph) (s e m : Version) : Prop :=
  Ancestor g s m ∧ Ancestor g e m ∧
    ∀ c, Ancestor g s c → Ancestor g e c → Ancestor g m c

/-- A rank function witnessing that the version graph is acyclic: every
parent link strictly decreases the rank. The sled tree is finite and the
Rust walk terminates exactly on such graphs. -/
def RankedGraph (g : VersionGraph) (rank : Version → ℕ) : Prop :=
  ∀ v n p, g v = some n → n.parent_version = some p → rank p < rank v

/-! ### Concrete database states used to instantiate the theorems -/

/-- Projects the new state out of a successful transaction result. -/
def resultDb {V : Type} (r : DbResult V) (fallback : MapDb V) : MapDb V :=
  match r with
  | .ok db => db
  | _ => fallback

/-- A database one write past its first commit: parent version 0, working
version 1, one backed-up key. -/
def c2Db : MapDb ℕ where
  meta := ⟨none, some ⟨0⟩, ⟨1⟩⟩
  working_tree := fun _ => none
  backup_tree := fun k => if k = ⟨0, 0⟩ then some .Remove else none
  version_change_tree := fun _ => none
  version_graph_tree := fun v => if v = ⟨0⟩ then some ⟨none⟩ else none
  backup_key_cache := [⟨0, 0⟩]
  next_id := 2

/-- The state after committing `c2Db`. -/
def c2Db' : MapDb ℕ := resultDb c2Db.commit_working_version c2Db

/-- A freshly opened database: no version ever committed, empty backup. -/
def c9Db : MapDb ℕ where
  meta := ⟨none, none, ⟨0⟩⟩
  working_tree := fun _ => none
  backup_tree := fun _ => none
  version_change_tree := fun _ => none
  version_graph_tree := fun _ => none
  backup_key_cache := []
  next_id := 1

/-- A database about to make its first ever commit: no parent version, one
backed-up key holding a `Remove` sentinel. -/
def c10Db : MapDb ℕ where
  meta := ⟨none, none, ⟨0⟩⟩
  working_tree := fun k => if k = ⟨0, 0⟩ then some 7 else none
  backup_tree := fun k => if k = ⟨0, 0⟩ then some .Remove else none
  version_change_tree := fun _ => none
  version_graph_tree := fun _ => none
  backup_key_cache := [⟨0, 0⟩]
  next_id := 1

/-- `Chunk::default()`: ambient sdf (`Sd8::MAX`, byte 127) and palette id 0
everywhere. -/
def defaultChunk : Chunk := ⟨List.replicate 4096 127, List.replicate 4096 0⟩

/-- A three-version graph: root version 0 with children 1 and 2, the shape
produced by two branches committed from the same root. -/
def c4Graph : VersionGraph := fun v =>
  if v.number = 0 then some ⟨none⟩
  else if v.number = 1 then some ⟨some ⟨0⟩⟩
  else if v.number = 2 then some ⟨some ⟨0⟩⟩
  else none

/-! ## Theorems -/

/-! ### C5: fixed-point SDF conversion -/

theorem i8Sat_eq_self {n : ℤ} (h1 : -128 ≤ n) (h2 : n ≤ 127) : i8Sat n = n := by
  simp only [i8Sat]
  omega

theorem ratTruncInt_bounds127 {q : ℚ} (h1 : -127 ≤ q) (h2 : q ≤ 127) :
    -127 ≤ ratTruncInt q ∧ ratTruncInt q ≤ 127 := by
  unfold ratTruncInt
  split
  · have hf : ⌊q⌋ ≤ ⌊(127 : ℚ)⌋ := Int.floor_le_floor h2
    have h127 : ⌊(127 : ℚ)⌋ = 127 := by norm_num
    have h0 : (0 : ℤ) ≤ ⌊q⌋ := Int.floor_nonneg.mpr (by assumption)
    omega
  · have hc : ⌈(-127 : ℚ)⌉ ≤ ⌈q⌉ := Int.ceil_le_ceil h1
    have h127 : ⌈(-127 : ℚ)⌉ = -127 := by rw [Int.ceil_neg]; norm_num
    have h0 : ⌈q⌉ ≤ ⌈(0 : ℚ)⌉ := Int.ceil_le_ceil (le_of_not_le (by assumption))
    have h00 : ⌈(0 : ℚ)⌉ = 0 := by norm_num
    omega

/-- C5 counterexample: at `x = 1/128` (exactly representable in `f32`, as is
the product `127 * (1/128) = 0.9921875`), the source conversion yields
`Sd8(0)` while `round(clamp(x,-1,1)*127) = 1`, so the claimed equality
fails. -/
theorem c5_sd8From_counterexample :
    sd8From (1 / 128) = 0 ∧ sd8FromSpec (1 / 128) = 1 ∧
      sd8From (1 / 128) ≠ sd8FromSpec (1 / 128) := by
  have hmin : min (1 / 128 : ℚ) 1 = 1 / 128 := by norm_num
  have hmax : max (1 / 128 : ℚ) (-1) = 1 / 128 := by norm_num
  have h1 : sd8From (1 / 128) = 0 := by
    unfold sd8From i8CastF i8Sat ratTruncInt sd8Resolution
    rw [hmin, hmax]
    norm_num
  have h2 : sd8FromSpec (1 / 128) = 1 := by
    unfold sd8FromSpec
    rw [hmin, hmax]
    norm_num [round_eq]
  exact ⟨h1, h2, by rw [h1, h2]; decide⟩

/-- C5 (amended): `Sd8::from(x)` equals `clamp(x, -1, 1) * 127` truncated
toward zero (not rounded to nearest); the conversion still saturates at
the endpoints, `Sd8::from(2.0) = Sd8::MAX` and `Sd8::from(-2.0) = Sd8::MIN`. -/
theorem c5_sd8From_truncates :
    (∀ s : ℚ, sd8From s = ratTruncInt (max (min s 1) (-1) * 127)) ∧
      sd8From 2 = sd8MAX ∧ sd8From (-2) = sd8MIN := by
  have hgen : ∀ s : ℚ, sd8From s = ratTruncInt (max (min s 1) (-1) * 127) := by
    intro s
    have hub : max (min s 1) (-1) ≤ 1 := max_le (min_le_right s 1) (by norm_num)
    have hlb : (-1 : ℚ) ≤ max (min s 1) (-1) := le_max_right _ _
    have h1 : sd8Resolution * max (min s 1) (-1) = max (min s 1) (-1) * 127 := by
      unfold sd8Resolution; ring
    have hq1 : (-127 : ℚ) ≤ max (min s 1) (-1) * 127 := by nlinarith
    have hq2 : max (min s 1) (-1) * 127 ≤ 127 := by nlinarith
    have hb := ratTruncInt_bounds127 hq1 hq2
    unfold sd8From i8CastF
    rw [h1, i8Sat_eq_self (by omega) (by omega)]
  have hmax2 : max (min (2 : ℚ) 1) (-1) = 1 := by norm_num
  have hmaxm2 : max (min (-2 : ℚ) 1) (-1) = -1 := by norm_num
  refine ⟨hgen, ?_, ?_⟩
  · rw [hgen 2, hmax2]
    unfold ratTruncInt sd8MAX
    norm_num
  · rw [hgen (-2), hmaxm2]
    unfold ratTruncInt sd8MIN
    rw [if_neg (by norm_num)]
    rw [show ((-1 : ℚ) * 127) = -(127 : ℚ) by norm_num, Int.ceil_neg]
    norm_num

/-! ### C6: ChunkDbKey serialization round-trip -/

theorem beBytes_length (n a : ℕ) : (beBytes n a).length = n := by
  induction n generalizing a with
  | zero => rfl
  | succ n ih => simp [beBytes, ih]

theorem fromBeBytes_go (n : ℕ) (a : ℕ) (h : a < 256 ^ n) (acc : ℕ) :
    List.foldl (fun acc b => 256 * acc + b) acc (beBytes n a) = acc * 256 ^ n + a := by
  induction n generalizing a acc with
  | zero => simp [beBytes]; omega
  | succ n ih =>
    have hmod : a % 256 ^ n < 256 ^ n := Nat.mod_lt _ (Nat.pos_pow_of_pos n (by norm_num))
    simp only [beBytes, List.foldl_cons, ih _ hmod]
    have hdm : 256 ^ n * (a / 256 ^ n) + a % 256 ^ n = a := Nat.div_add_mod a (256 ^ n)
    calc (256 * acc + a / 256 ^ n) * 256 ^ n + a % 256 ^ n
        = acc * (256 ^ n * 256) + (256 ^ n * (a / 256 ^ n) + a % 256 ^ n) := by ring
      _ = acc * 256 ^ (n + 1) + a := by rw [hdm, pow_succ]

theorem fromBeBytes_beBytes {n a : ℕ} (h : a < 256 ^ n) :
    fromBeBytes (beBytes n a) = a := by
  unfold fromBeBytes
  rw [fromBeBytes_go n a h 0]
  omega

theorem beBytes_zero_pad (m : ℕ) {n a : ℕ} (h : a < 256 ^ n) :
    beBytes (m + n) a = List.replicate m 0 ++ beBytes n a := by
  induction m with
  | zero => simp
  | succ m ih =>
    have hle : 256 ^ n ≤ 256 ^ (m + n) := Nat.pow_le_pow_right (by norm_num) (by omega)
    have hlt : a < 256 ^ (m + n) := lt_of_lt_of_le h hle
    have harr : m + 1 + n = (m + n) + 1 := by omega
    rw [harr]
    simp only [beBytes]
    rw [Nat.div_eq_of_lt hlt, Nat.mod_eq_of_lt hlt, ih]
    rfl

theorem fromBeBytes_replicate_zero (m : ℕ) (l : List ℕ) :
    fromBeBytes (List.replicate m 0 ++ l) = fromBeBytes l := by
  unfold fromBeBytes
  rw [List.foldl_append]
  congr 1
  induction m with
  | zero => rfl
  | succ m ih => simpa using ih

theorem into_sled_key_struct (k : ChunkDbKey) (h : k.morton < 2 ^ 96) :
    k.into_sled_key = k.level :: beBytes 12 k.morton := by
  have h' : k.morton < 256 ^ 12 := by
    have : (256 : ℕ) ^ 12 = 2 ^ 96 := by norm_num
    omega
  have h16 : beBytes 16 k.morton = List.replicate 4 0 ++ beBytes 12 k.morton :=
    beBytes_zero_pad 4 h'
  unfold ChunkDbKey.into_sled_key
  rw [h16, List.drop_append_of_le_length (by simp)]
  simp

/-- C6: for every `ChunkDbKey` whose Morton code fits in the low 96 bits of
the `u128`, `into_sled_key` produces exactly 13 bytes — the level byte
followed by the big-endian low 12 bytes of the Morton code — and
`from_sled_key` inverts it. -/
theorem c6_chunkDbKey_sled_roundtrip (k : ChunkDbKey) (h : k.morton < 2 ^ 96) :
    k.into_sled_key.length = 13 ∧
      k.into_sled_key = k.level :: beBytes 12 k.morton ∧
      ChunkDbKey.from_sled_key k.into_sled_key = k := by
  have h' : k.morton < 256 ^ 12 := by
    have : (256 : ℕ) ^ 12 = 2 ^ 96 := by norm_num
    omega
  have hstruct : k.into_sled_key = k.level :: beBytes 12 k.morton :=
    into_sled_key_struct k h
  refine ⟨?_, hstruct, ?_⟩
  · rw [hstruct]
    simp [beBytes_length]
  · rw [hstruct]
    unfold ChunkDbKey.from_sled_key
    simp only [List.headD_cons, List.tail_cons]
    rw [fromBeBytes_replicate_zero, fromBeBytes_beBytes h']

/-- Witness for C6 at a concrete key. -/
theorem c6_chunkDbKey_sled_roundtrip_witness :
    (ChunkDbKey.mk 3 123456789).morton < 2 ^ 96 ∧
      ChunkDbKey.from_sled_key (ChunkDbKey.into_sled_key ⟨3, 123456789⟩) = ⟨3, 123456789⟩ :=
  ⟨by norm_num, (c6_chunkDbKey_sled_roundtrip ⟨3, 123456789⟩ (by norm_num)).2.2⟩

/-! ### C3: broad-phase load search -/

/-- `distLtRadius` decides exactly the real-number comparison
`√D < R + k·√3` computed by the source (`dist - node_radius < clip_radius`
with `dist = √D`, `node_radius = k√3`, `clip_radius = R`). -/
theorem distLtRadius_iff (D R k : ℚ) (hD : 0 ≤ D) (hR : 0 ≤ R) (hk : 0 ≤ k) :
    distLtRadius D R k = true ↔
      Real.sqrt (D : ℝ) < (R : ℝ) + (k : ℝ) * Real.sqrt 3 := by
  have h3 : (0 : ℝ) ≤ Real.sqrt 3 := Real.sqrt_nonneg 3
  have hRr : (0 : ℝ) ≤ (R : ℝ) := by exact_mod_cast hR
  have hkr : (0 : ℝ) ≤ (k : ℝ) := by exact_mod_cast hk
  have hDr : (0 : ℝ) ≤ (D : ℝ) := by exact_mod_cast hD
  have hs : (0 : ℝ) ≤ (R : ℝ) + (k : ℝ) * Real.sqrt 3 := by positivity
  have hsq3 : Real.sqrt 3 ^ 2 = 3 := Real.sq_sqrt (by norm_num)
  have hssq : ((R : ℝ) + (k : ℝ) * Real.sqrt 3) ^ 2 =
      (R : ℝ) ^ 2 + 3 * (k : ℝ) ^ 2 + 2 * (R : ℝ) * (k : ℝ) * Real.sqrt 3 := by
    have : ((R : ℝ) + (k : ℝ) * Real.sqrt 3) ^ 2 =
        (R : ℝ) ^ 2 + (k : ℝ) ^ 2 * Real.sqrt 3 ^ 2 + 2 * (R : ℝ) * (k : ℝ) * Real.sqrt 3 := by
      ring
    rw [this, hsq3]
    ring
  have key1 : Real.sqrt (D : ℝ) < (R : ℝ) + (k : ℝ) * Real.sqrt 3 ↔
      (D : ℝ) < ((R : ℝ) + (k : ℝ) * Real.sqrt 3) ^ 2 := by
    constructor
    · intro h
      have h0 : (0 : ℝ) ≤ Real.sqrt (D : ℝ) := Real.sqrt_nonneg _
      have hD2 : Real.sqrt (D : ℝ) ^ 2 = (D : ℝ) := Real.sq_sqrt hDr
      nlinarith [h, h0]
    · intro h
      have := Real.sqrt_lt_sqrt hDr h
      rwa [Real.sqrt_sq hs] at this
  have key2 : (D : ℝ) < ((R : ℝ) + (k : ℝ) * Real.sqrt 3) ^ 2 ↔
      ((D : ℝ) - (R : ℝ) ^ 2 - 3 * (k : ℝ) ^ 2) < 2 * (R : ℝ) * (k : ℝ) * Real.sqrt 3 := by
    rw [hssq]
    constructor <;> intro h <;> linarith
  have hB : (0 : ℝ) ≤ 2 * (R : ℝ) * (k : ℝ) := by positivity
  have key3 : ((D : ℝ) - (R : ℝ) ^ 2 - 3 * (k : ℝ) ^ 2) < 2 * (R : ℝ) * (k : ℝ) * Real.sqrt 3 ↔
      ((D : ℝ) - (R : ℝ) ^ 2 - 3 * (k : ℝ) ^ 2 < 0 ∨
        ((D : ℝ) - (R : ℝ) ^ 2 - 3 * (k : ℝ) ^ 2) ^ 2 < 3 * (2 * (R : ℝ) * (k : ℝ)) ^ 2) := by
    set A : ℝ := (D : ℝ) - (R : ℝ) ^ 2 - 3 * (k : ℝ) ^ 2 with hA
    set B : ℝ := 2 * (R : ℝ) * (k : ℝ) with hBdef
    constructor
    · intro h
      rcases lt_or_le A 0 with hneg | hpos
      · exact Or.inl hneg
      · refine Or.inr ?_
        nlinarith [h, hpos, hsq3, Real.sqrt_nonneg (3 : ℝ)]
    · intro h
      rcases h with hneg | hlt
      · have : (0 : ℝ) ≤ B * Real.sqrt 3 := by positivity
        linarith
      · have habs : |A| = Real.sqrt (A ^ 2) := (Real.sqrt_sq_eq_abs A).symm
        have h3B : Real.sqrt (3 * B ^ 2) = Real.sqrt 3 * B := by
          rw [Real.sqrt_mul (by norm_num), Real.sqrt_sq hB]
        have hmono : Real.sqrt (A ^ 2) < Real.sqrt (3 * B ^ 2) :=
          Real.sqrt_lt_sqrt (sq_nonneg A) hlt
        calc A ≤ |A| := le_abs_self A
          _ = Real.sqrt (A ^ 2) := habs
          _ < Real.sqrt (3 * B ^ 2) := hmono
          _ = Real.sqrt 3 * B := h3B
          _ = B * Real.sqrt 3 := by ring
  rw [key1, key2, key3]
  simp only [distLtRadius, Bool.or_eq_true, decide_eq_true_eq]
  constructor
  · intro h
    rcases h with h | h
    · exact Or.inl (by exact_mod_cast h)
    · exact Or.inr (by exact_mod_cast h)
  · intro h
    rcases h with h | h
    · exact Or.inl (by exact_mod_cast h)
    · exact Or.inr (by exact_mod_cast h)

theorem broadPhase_candidate_extent :
    sphere_intersecting_ancestor_chunk_extent ⟨⟨24, 24, 24⟩, 1⟩ 0 = ⟨⟨1, 1, 1⟩, ⟨1, 1, 1⟩⟩ := by
  have h1 : Int.fdiv 23 16 = 1 := by decide
  have h2 : Int.fdiv 25 16 = 1 := by decide
  simp only [sphere_intersecting_ancestor_chunk_extent, sphereContainingIntegerExtent,
    in_chunk_extent, ancestor_extent, extentFromMinAndMax, ExtentI.maxv, IV3.sar]
  norm_num [h1, h2]

theorem extentIter3_singleton :
    extentIter3 (⟨⟨1, 1, 1⟩, ⟨1, 1, 1⟩⟩ : ExtentI) = [⟨1, 1, 1⟩] := by
  simp [extentIter3, intRange, List.range_succ]

theorem root_20_intersects_new :
    nodeIntersectsSphere ⟨⟨24, 24, 24⟩, 1⟩ 0 ⟨20, 20, 20⟩ = true := by
  have h3 : Int.fdiv 16 2 = 8 := by decide
  simp only [nodeIntersectsSphere, distLtRadius, chunkBoundingSphereCenter, chunkBoundingSphereK,
    descendant_extent, chunk_extent_at_level_ivec3, IV3.shl, IV3.sar, IV3.add, IV3.toQ,
    IV3.maxElement, distSq, Bool.or_eq_true, decide_eq_true_eq]
  norm_num [h3]

theorem root_20_misses_old :
    nodeIntersectsSphere ⟨⟨1000, 1000, 1000⟩, 1⟩ 0 ⟨20, 20, 20⟩ = false := by
  have h3 : Int.fdiv 16 2 = 8 := by decide
  simp only [nodeIntersectsSphere, distLtRadius, chunkBoundingSphereCenter, chunkBoundingSphereK,
    descendant_extent, chunk_extent_at_level_ivec3, IV3.shl, IV3.sar, IV3.add, IV3.toQ,
    IV3.maxElement, distSq, Bool.or_eq_false_eq_eq_false_and_eq_false, decide_eq_false_iff_not]
  norm_num [h3]

theorem root_1_misses_new :
    nodeIntersectsSphere ⟨⟨24, 24, 24⟩, 1⟩ 0 ⟨1, 1, 1⟩ = false := by
  have h3 : Int.fdiv 16 2 = 8 := by decide
  simp only [nodeIntersectsSphere, distLtRadius, chunkBoundingSphereCenter, chunkBoundingSphereK,
    descendant_extent, chunk_extent_at_level_ivec3, IV3.shl, IV3.sar, IV3.add, IV3.toQ,
    IV3.maxElement, distSq, Bool.or_eq_false_eq_eq_false_and_eq_false, decide_eq_false_iff_not]
  norm_num [h3]

/-- C3 failing input: with root level 0, clip radius 1, old observer
`(1000,1000,1000)` and new observer `(24,24,24)`, the root `(20,20,20)`
has its bounding sphere intersecting the new clip sphere and not the old
one, yet `broad_phase_load_search` inserts nothing: the single candidate
root `(1,1,1)` of the (inconsistently computed) candidate extent misses
the new clip sphere and the source `return` exits the whole function. -/
theorem c3_broad_phase_misses_entered_root :
    broad_phase_load_search ⟨1000, 1000, 1000⟩ ⟨24, 24, 24⟩ 1 0 = [] ∧
      nodeIntersectsSphere ⟨⟨24, 24, 24⟩, 1⟩ 0 ⟨20, 20, 20⟩ = true ∧
      nodeIntersectsSphere ⟨⟨1000, 1000, 1000⟩, 1⟩ 0 ⟨20, 20, 20⟩ = false := by
  refine ⟨?_, root_20_intersects_new, root_20_misses_old⟩
  show broadPhaseGo ⟨⟨1000, 1000, 1000⟩, 1⟩ ⟨⟨24, 24, 24⟩, 1⟩ 0
    (extentIter3 (sphere_intersecting_ancestor_chunk_extent ⟨⟨24, 24, 24⟩, 1⟩ 0)) = []
  rw [broadPhase_candidate_extent, extentIter3_singleton]
  simp [broadPhaseGo, root_1_misses_new]

/-! ### C7: chunk compression round-trip -/

theorem lz4_roundtrip_bounded (n : ℕ) :
    ∀ d : List ℕ, d.length ≤ n → lz4FrameDecode (lz4FrameEncode d) = d := by
  induction n with
  | zero =>
    intro d hd
    have : d = [] := List.eq_nil_of_length_eq_zero (Nat.le_zero.mp hd)
    subst this
    simp [lz4FrameEncode, lz4FrameDecode]
  | succ n ih =>
    intro d hd
    match d with
    | [] => simp [lz4FrameEncode, lz4FrameDecode]
    | a :: t =>
      have htake : (a :: t).take 255 = a :: t.take 254 := by
        rw [show (255 : ℕ) = 254 + 1 by norm_num, List.take_succ_cons]
      have hlen : ((a :: t).take 255).length = (t.take 254).length + 1 := by
        rw [htake, List.length_cons]
      have hrest : ((a :: t).drop 255).length ≤ n := by
        simp only [List.length_drop, List.length_cons]
        simp only [List.length_cons] at hd
        omega
      have henc : lz4FrameEncode (a :: t) =
          ((t.take 254).length + 1) ::
            ((a :: t).take 255 ++ lz4FrameEncode ((a :: t).drop 255)) := by
        rw [lz4FrameEncode, hlen]
      rw [henc, lz4FrameDecode]
      rw [← hlen, List.take_left' rfl, List.drop_left' rfl, ih _ hrest,
        List.take_append_drop]

theorem lz4_roundtrip (d : List ℕ) : lz4FrameDecode (lz4FrameEncode d) = d :=
  lz4_roundtrip_bounded d.length d le_rfl

/-- C7: for every well-formed chunk (4096 sdf bytes and 4096 palette bytes),
decompressing the compressed form recovers the chunk bit-exactly. -/
theorem c7_chunk_compress_roundtrip (c : Chunk) (h : c.WF) :
    decompress c.compress = some c := by
  obtain ⟨hs, hp⟩ := h
  unfold decompress Chunk.from_compressed_bytes Chunk.compress
  rw [lz4_roundtrip]
  have hlen : c.bytesOf.length = 8192 := by
    simp [Chunk.bytesOf, hs, hp]
  rw [if_neg (by omega)]
  simp only [hlen, Nat.sub_self, List.replicate_zero, List.append_nil]
  have h1 : c.bytesOf.take 4096 = c.sdf := by
    unfold Chunk.bytesOf
    rw [List.take_left' hs]
  have h2 : c.bytesOf.drop 4096 = c.palette_ids := by
    unfold Chunk.bytesOf
    rw [List.drop_left' hs]
  rw [h1, h2, List.take_of_length_le (by omega)]

theorem defaultChunk_wf : defaultChunk.WF := by
  have h1 : defaultChunk.sdf = List.replicate 4096 127 := rfl
  have h2 : defaultChunk.palette_ids = List.replicate 4096 0 := rfl
  exact ⟨by rw [h1, List.length_replicate], by rw [h2, List.length_replicate]⟩

/-- Witness for C7 at the default chunk. -/
theorem c7_chunk_compress_roundtrip_witness :
    defaultChunk.WF ∧ decompress defaultChunk.compress = some defaultChunk :=
  ⟨defaultChunk_wf, c7_chunk_compress_roundtrip defaultChunk defaultChunk_wf⟩

/-! ### C2: the version-graph insertion performed by commit -/

/-- C2 counterexample: committing `c2Db` (pre-commit parent version 0,
grandparent `None`, working version 1, non-empty backup) does not insert
`VersionNode { parent: grandparent } = VersionNode { parent: None }` at
key 0 (the pre-commit parent): the entry at key 0 keeps its old value
`VersionNode { parent: None }`... instead the insertion happens at key 1
(the pre-commit working version) with parent 0. To separate the two keys
the graph entry at key 0 is pre-seeded and stays untouched, while key 1
gains `VersionNode { parent: Some(0) }`, which the claim does not
predict. -/
theorem c2_commit_counterexample :
    c2Db'.version_graph_tree ⟨1⟩ = some ⟨some ⟨0⟩⟩ ∧
      c2Db'.version_graph_tree ⟨0⟩ = some ⟨none⟩ ∧
      c2Db'.version_graph_tree ⟨1⟩ ≠ none ∧
      (¬ (c2Db'.version_graph_tree ⟨0⟩ = some ⟨none⟩ → c2Db'.version_graph_tree ⟨1⟩ = none)) := by
  refine ⟨?_, ?_, ?_, ?_⟩ <;> decide

/-- C2 (amended): when `commit_working_version` runs with a non-empty
backup, it inserts into the version-graph table, at key equal to the
pre-commit *working* version, a `VersionNode` whose parent field is the
pre-commit *parent* version (equivalently: at the post-commit parent
version, a node holding the post-commit grandparent); every other graph
key is left unchanged. -/
theorem c2_commit_links_working_version {V : Type} (db db' : MapDb V)
    (hne : db.backup_key_cache ≠ [])
    (h : db.commit_working_version = .ok db') :
    db'.version_graph_tree db.meta.working_version = some ⟨db.meta.parent_version⟩ ∧
      ∀ v, v ≠ db.meta.working_version →
        db'.version_graph_tree v = db.version_graph_tree v := by
  unfold MapDb.commit_working_version at h
  rw [if_neg hne] at h
  cases hp : db.meta.parent_version with
  | none =>
    rw [hp] at h
    simp only [DbResult.ok.injEq] at h
    subst h
    constructor
    · simp [fupdate, hp]
    · intro v hv
      simp [fupdate, hv]
  | some parent =>
    rw [hp] at h
    cases hcb : commitBackup db.backup_tree db.backup_key_cache with
    | none => rw [hcb] at h; exact absurd h (by simp)
    | some drained =>
      rw [hcb] at h
      simp only [DbResult.ok.injEq] at h
      subst h
      constructor
      · simp [fupdate, hp]
      · intro v hv
        simp [fupdate, hv]

/-- Witness for C2 (amended) at the concrete state `c2Db`. -/
theorem c2_commit_links_working_version_witness :
    c2Db.backup_key_cache ≠ [] ∧
      c2Db'.version_graph_tree c2Db.meta.working_version =
        some ⟨c2Db.meta.parent_version⟩ :=
  ⟨by decide,
    (c2_commit_links_working_version c2Db c2Db' (by decide) rfl).1⟩

/-! ### C9: branching from a fresh database is a no-op -/

/-- C9: if no version has ever been committed (`parent_version` is `None`)
and the backup key cache is empty, `branch_from_version` succeeds for
every argument — even a version id absent from the version graph — and
changes nothing: the commit it begins with is a no-op on the empty
backup, and the `None` parent short-circuits the migration. -/
theorem c9_branch_from_version_noop {V : Type} (db : MapDb V) (v : Version) (fuel : ℕ)
    (hparent : db.meta.parent_version = none)
    (hcache : db.backup_key_cache = []) :
    MapDb.branch_from_version fuel db v = .ok db := by
  unfold MapDb.branch_from_version MapDb.commit_working_version
  rw [if_pos hcache]
  simp [hparent]

/-- Witness for C9: branching a fresh database to the nonexistent version 42
returns `Ok` and leaves the state untouched. -/
theorem c9_branch_from_version_noop_witness :
    c9Db.meta.parent_version = none ∧ c9Db.backup_key_cache = [] ∧
      MapDb.branch_from_version 5 c9Db ⟨42⟩ = .ok c9Db :=
  ⟨rfl, rfl, c9_branch_from_version_noop c9Db ⟨42⟩ 5 rfl rfl⟩

/-! ### C10: the first ever commit discards the backup without archiving -/

/-- C10: on the first ever commit (no parent version) with a non-empty
backup whose entries are exactly the cached keys, every backup entry is
deleted without being archived — the version-change table is untouched,
so no delta that could revert the root version is recorded — while the
working version is still linked into the version graph (with no parent)
and the metadata advances. -/
theorem c10_first_commit_discards_backup {V : Type} (db : MapDb V)
    (hparent : db.meta.parent_version = none)
    (hne : db.backup_key_cache ≠ [])
    (hdom : ∀ k, db.backup_tree k ≠ none → k ∈ db.backup_key_cache) :
    ∃ db', db.commit_working_version = .ok db' ∧
      (∀ k, db'.backup_tree k = none) ∧
      db'.version_change_tree = db.version_change_tree ∧
      db'.version_graph_tree db.meta.working_version = some ⟨none⟩ ∧
      db'.meta = ⟨none, some db.meta.working_version, ⟨db.next_id⟩⟩ ∧
      db'.working_tree = db.working_tree := by
  refine ⟨{ db with
      meta := ⟨none, some db.meta.working_version, ⟨db.next_id⟩⟩
      backup_tree := clearBackup db.backup_tree db.backup_key_cache
      version_graph_tree :=
        fupdate db.version_graph_tree db.meta.working_version (some ⟨none⟩)
      backup_key_cache := []
      next_id := db.next_id + 1 }, ?_, ?_, ?_, ?_, ?_, ?_⟩
  · unfold MapDb.commit_working_version
    rw [if_neg hne, hparent]
  · intro k
    by_cases hk : k ∈ db.backup_key_cache
    · simp [clearBackup, hk]
    · have := mt (hdom k) hk
      simp only [clearBackup, if_neg hk]
      simpa using this
  · rfl
  · simp [fupdate, hparent]
  · rfl
  · rfl

/-- Witness for C10 at the concrete state `c10Db`. -/
theorem c10_first_commit_discards_backup_witness :
    (c10Db.meta.parent_version = none ∧ c10Db.backup_key_cache ≠ [] ∧
        ∀ k, c10Db.backup_tree k ≠ none → k ∈ c10Db.backup_key_cache) ∧
      ∃ db', c10Db.commit_working_version = .ok db' ∧
        (∀ k, db'.backup_tree k = none) ∧
        db'.version_change_tree = c10Db.version_change_tree ∧
        db'.version_graph_tree c10Db.meta.working_version = some ⟨none⟩ ∧
        db'.meta = ⟨none, some c10Db.meta.working_version, ⟨c10Db.next_id⟩⟩ ∧
        db'.working_tree = c10Db.working_tree := by
  have hdom : ∀ k, c10Db.backup_tree k ≠ none → k ∈ c10Db.backup_key_cache := by
    intro k h
    by_cases hk : k = ⟨0, 0⟩
    · subst hk; simp [c10Db]
    · exfalso
      apply h
      simp [c10Db, hk]
  exact ⟨⟨rfl, by decide, hdom⟩,
    c10_first_commit_discards_backup c10Db rfl (by decide) hdom⟩

/-! ### C8: ChangeEncoder ordering and dedup -/

theorem assocLookup_addCompressedChange {V : Type} (m : List (ChunkDbKey × Change V))
    (k k' : ChunkDbKey) (c : Change V) :
    assocLookup (addCompressedChange m k c) k' =
      if k' = k then some c else assocLookup m k' := by
  induction m with
  | nil => rfl
  | cons p t ih =>
    obtain ⟨k'', c''⟩ := p
    by_cases hk : k'' = k
    · subst hk
      by_cases hk' : k' = k''
      · simp [addCompressedChange, assocLookup, hk']
      · simp [addCompressedChange, assocLookup, hk']
    · simp only [addCompressedChange, if_neg hk, assocLookup]
      by_cases hk' : k' = k''
      · subst hk'
        rw [if_pos rfl, if_neg hk, if_pos rfl]
      · rw [if_neg hk', ih, if_neg hk']

theorem mem_keys_addCompressedChange {V : Type} (m : List (ChunkDbKey × Change V))
    (k a : ChunkDbKey) (c : Change V) :
    a ∈ (addCompressedChange m k c).map Prod.fst ↔ a ∈ m.map Prod.fst ∨ a = k := by
  induction m with
  | nil => simp [addCompressedChange]
  | cons p t ih =>
    obtain ⟨k'', c''⟩ := p
    by_cases hk : k'' = k
    · subst hk
      simp [addCompressedChange]
      tauto
    · simp only [addCompressedChange, if_neg hk, List.map_cons, List.mem_cons, ih]
      tauto

theorem nodup_keys_addCompressedChange {V : Type} (m : List (ChunkDbKey × Change V))
    (k : ChunkDbKey) (c : Change V) (h : (m.map Prod.fst).Nodup) :
    ((addCompressedChange m k c).map Prod.fst).Nodup := by
  induction m with
  | nil => simp [addCompressedChange]
  | cons p t ih =>
    obtain ⟨k'', c''⟩ := p
    simp only [List.map_cons, List.nodup_cons] at h
    by_cases hk : k'' = k
    · subst hk
      simpa [addCompressedChange] using h
    · simp only [addCompressedChange, if_neg hk, List.map_cons, List.nodup_cons]
      refine ⟨?_, ih h.2⟩
      rw [mem_keys_addCompressedChange]
      rintro (hmem | rfl)
      · exact h.1 hmem
      · exact hk rfl

theorem assocLookup_mem_keys {A : Type} {m : List (ChunkDbKey × A)} {k : ChunkDbKey} {a : A}
    (h : assocLookup m k = some a) : k ∈ m.map Prod.fst := by
  induction m with
  | nil => simp [assocLookup] at h
  | cons p t ih =>
    obtain ⟨k', a'⟩ := p
    simp only [assocLookup] at h
    by_cases hk : k = k'
    · simp [hk]
    · rw [if_neg hk] at h
      simp [ih h]

theorem mem_iff_assocLookup {A : Type} (m : List (ChunkDbKey × A))
    (h : (m.map Prod.fst).Nodup) (k : ChunkDbKey) (a : A) :
    (k, a) ∈ m ↔ assocLookup m k = some a := by
  induction m with
  | nil => simp [assocLookup]
  | cons p t ih =>
    obtain ⟨k', a'⟩ := p
    simp only [List.map_cons, List.nodup_cons] at h
    simp only [List.mem_cons, assocLookup, Prod.mk.injEq]
    by_cases hk : k = k'
    · subst hk
      rw [if_pos rfl]
      constructor
      · rintro (⟨-, rfl⟩ | hmem)
        · rfl
        · exact absurd (List.mem_map_of_mem Prod.fst hmem) h.1
      · rintro h'
        refine Or.inl ⟨rfl, ?_⟩
        injection h' with h''
        exact h''.symm
    · rw [if_neg hk, ← ih h.2]
      constructor
      · rintro (⟨rfl, -⟩ | hmem)
        · exact absurd rfl hk
        · exact hmem
      · exact Or.inr

theorem encoderOfAdds_go {V : Type} (adds : List (ChunkDbKey × Change V)) :
    ∀ (m : List (ChunkDbKey × Change V)) (k : ChunkDbKey),
      assocLookup (adds.foldl (fun m kc => addCompressedChange m kc.1 kc.2) m) k =
        adds.foldl (fun acc kc => if kc.1 = k then some kc.2 else acc) (assocLookup m k) := by
  induction adds with
  | nil => intro m k; rfl
  | cons kc rest ih =>
    intro m k
    simp only [List.foldl_cons, ih, assocLookup_addCompressedChange]
    congr 1
    by_cases hk : kc.1 = k
    · rw [if_pos hk, if_pos (by rw [hk])]
    · rw [if_neg hk, if_neg (by intro h; exact hk (by rw [h]))]

theorem encoderOfAdds_lookup {V : Type} (adds : List (ChunkDbKey × Change V)) (k : ChunkDbKey) :
    assocLookup (encoderOfAdds adds) k = lastAdded adds k := by
  unfold encoderOfAdds lastAdded
  rw [encoderOfAdds_go]
  rfl

theorem encoderOfAdds_nodup {V : Type} (adds : List (ChunkDbKey × Change V)) :
    ((encoderOfAdds adds).map Prod.fst).Nodup := by
  unfold encoderOfAdds
  have main : ∀ m : List (ChunkDbKey × Change V), (m.map Prod.fst).Nodup →
      ((adds.foldl (fun m kc => addCompressedChange m kc.1 kc.2) m).map Prod.fst).Nodup := by
    induction adds with
    | nil => exact fun m hm => hm
    | cons kc rest ih =>
      intro m hm
      exact ih _ (nodup_keys_addCompressedChange m kc.1 kc.2 hm)
  exact main [] (by simp)

theorem keyLe_total (a b : ChunkDbKey) :
    ChunkDbKey.keyLe a b = true ∨ ChunkDbKey.keyLe b a = true := by
  simp only [ChunkDbKey.keyLe, Bool.or_eq_true, Bool.and_eq_true, decide_eq_true_eq]
  omega

theorem keyLe_trans {a b c : ChunkDbKey} (h1 : ChunkDbKey.keyLe a b = true)
    (h2 : ChunkDbKey.keyLe b c = true) : ChunkDbKey.keyLe a c = true := by
  simp only [ChunkDbKey.keyLe, Bool.or_eq_true, Bool.and_eq_true, decide_eq_true_eq] at *
  omega

theorem keyLt_of_keyLe_ne {a b : ChunkDbKey} (h1 : ChunkDbKey.keyLe a b = true)
    (h2 : a ≠ b) : ChunkDbKey.keyLt a b = true := by
  have h3 : a.level ≠ b.level ∨ a.morton ≠ b.morton := by
    by_contra hc
    push_neg at hc
    exact h2 (by cases a; cases b; simp_all)
  simp only [ChunkDbKey.keyLe, ChunkDbKey.keyLt, Bool.or_eq_true, Bool.and_eq_true,
    decide_eq_true_eq] at *
  omega

theorem sortedInsert_perm {V : Type} (p : ChunkDbKey × Change V)
    (l : List (ChunkDbKey × Change V)) : (sortedInsert p l).Perm (p :: l) := by
  induction l with
  | nil => simp [sortedInsert]
  | cons q t ih =>
    simp only [sortedInsert]
    by_cases h : ChunkDbKey.keyLe p.1 q.1
    · rw [if_pos h]
    · rw [if_neg h]
      exact (List.Perm.cons q ih).trans (List.Perm.swap p q t)

theorem sortByKey_perm {V : Type} (l : List (ChunkDbKey × Change V)) :
    (sortByKey l).Perm l := by
  induction l with
  | nil => simp [sortByKey]
  | cons p t ih =>
    exact (sortedInsert_perm p (sortByKey t)).trans (List.Perm.cons p ih)

theorem sortedInsert_pairwise {V : Type} (p : ChunkDbKey × Change V)
    (l : List (ChunkDbKey × Change V))
    (h : l.Pairwise (fun x y => ChunkDbKey.keyLe x.1 y.1 = true)) :
    (sortedInsert p l).Pairwise (fun x y => ChunkDbKey.keyLe x.1 y.1 = true) := by
  induction l with
  | nil => simp [sortedInsert]
  | cons q t ih =>
    simp only [List.pairwise_cons] at h
    simp only [sortedInsert]
    by_cases hle : ChunkDbKey.keyLe p.1 q.1
    · rw [if_pos hle]
      refine List.Pairwise.cons ?_ (List.Pairwise.cons h.1 h.2)
      intro r hr
      rcases List.mem_cons.mp hr with rfl | hrt
      · exact hle
      · exact keyLe_trans hle (h.1 r hrt)
    · rw [if_neg hle]
      have hqp : ChunkDbKey.keyLe q.1 p.1 = true := by
        rcases keyLe_total p.1 q.1 with h' | h'
        · exact absurd h' hle
        · exact h'
      refine List.Pairwise.cons ?_ (ih h.2)
      intro r hr
      have hr' := (sortedInsert_perm p t).mem_iff.mp hr
      rcases List.mem_cons.mp hr' with rfl | hrt
      · exact hqp
      · exact h.1 r hrt

theorem sortByKey_pairwise {V : Type} (l : List (ChunkDbKey × Change V)) :
    (sortByKey l).Pairwise (fun x y => ChunkDbKey.keyLe x.1 y.1 = true) := by
  induction l with
  | nil => simp [sortByKey]
  | cons p t ih => exact sortedInsert_pairwise p (sortByKey t) ih

theorem divmod_lt_iff (M a b : ℕ) :
    a < b ↔ a / M < b / M ∨ (a / M = b / M ∧ a % M < b % M) := by
  constructor
  · intro h
    rcases Nat.lt_or_ge (a / M) (b / M) with h1 | h1
    · exact Or.inl h1
    · have h3 : a / M ≤ b / M := Nat.div_le_div_right (le_of_lt h)
      have heq : a / M = b / M := le_antisymm h3 h1
      refine Or.inr ⟨heq, ?_⟩
      have e1 := Nat.div_add_mod a M
      have e2 := Nat.div_add_mod b M
      have e3 : M * (a / M) = M * (b / M) := by rw [heq]
      omega
  · rintro (h1 | ⟨heq, hr⟩)
    · by_contra hc
      exact absurd (Nat.div_le_div_right (Nat.le_of_not_lt hc)) (Nat.not_le_of_lt h1)
    · have e1 := Nat.div_add_mod a M
      have e2 := Nat.div_add_mod b M
      have e3 : M * (a / M) = M * (b / M) := by rw [heq]
      omega

theorem bytesLt_beBytes {n a b : ℕ} (ha : a < 256 ^ n) (hb : b < 256 ^ n) :
    bytesLt (beBytes n a) (beBytes n b) = true ↔ a < b := by
  induction n generalizing a b with
  | zero =>
    simp only [pow_zero, Nat.lt_one_iff] at ha hb
    subst ha; subst hb
    simp [beBytes, bytesLt]
  | succ n ih =>
    have hM : 0 < 256 ^ n := Nat.pos_pow_of_pos n (by norm_num)
    have hamod : a % 256 ^ n < 256 ^ n := Nat.mod_lt _ hM
    have hbmod : b % 256 ^ n < 256 ^ n := Nat.mod_lt _ hM
    simp only [beBytes, bytesLt, Bool.or_eq_true, Bool.and_eq_true, decide_eq_true_eq,
      ih hamod hbmod]
    exact (divmod_lt_iff (256 ^ n) a b).symm

theorem keyLt_iff_bytesLt (k1 k2 : ChunkDbKey) (h1 : k1.morton < 2 ^ 96)
    (h2 : k2.morton < 2 ^ 96) :
    ChunkDbKey.keyLt k1 k2 = true ↔
      bytesLt k1.into_sled_key k2.into_sled_key = true := by
  have hp : (256 : ℕ) ^ 12 = 2 ^ 96 := by norm_num
  have h1' : k1.morton < 256 ^ 12 := by rw [hp]; exact h1
  have h2' : k2.morton < 256 ^ 12 := by rw [hp]; exact h2
  have hb := bytesLt_beBytes h1' h2'
  rw [into_sled_key_struct k1 h1, into_sled_key_struct k2 h2]
  have hcons : bytesLt (k1.level :: beBytes 12 k1.morton) (k2.level :: beBytes 12 k2.morton) =
      (decide (k1.level < k2.level) ||
        (decide (k1.level = k2.level) &&
          bytesLt (beBytes 12 k1.morton) (beBytes 12 k2.morton))) := rfl
  rw [hcons]
  simp only [ChunkDbKey.keyLt, Bool.or_eq_true, Bool.and_eq_true, decide_eq_true_eq, hb]

/-- C8: for every sequence of `add_compressed_change` calls, `encode` emits
pairwise strictly increasing keys (hence at most one entry per key), an
entry for a key appears exactly when the key was added and holds the last
change added for it, and the key order coincides with lexicographic
order on the serialized 13-byte sled keys for all valid keys. -/
theorem c8_change_encoder_encode {V : Type} (adds : List (ChunkDbKey × Change V)) :
    (ChangeEncoder.encode (encoderOfAdds adds)).Pairwise
        (fun x y => ChunkDbKey.keyLt x.1 y.1 = true) ∧
      (∀ k c, (k, c) ∈ ChangeEncoder.encode (encoderOfAdds adds) ↔
        lastAdded adds k = some c) ∧
      (∀ k1 k2 : ChunkDbKey, k1.level < 256 → k2.level < 256 →
        k1.morton < 2 ^ 96 → k2.morton < 2 ^ 96 →
        (ChunkDbKey.keyLt k1 k2 = true ↔
          bytesLt k1.into_sled_key k2.into_sled_key = true)) := by
  have hperm : (ChangeEncoder.encode (encoderOfAdds adds)).Perm (encoderOfAdds adds) :=
    sortByKey_perm _
  have hnodup0 := encoderOfAdds_nodup adds
  have hnodup : ((ChangeEncoder.encode (encoderOfAdds adds)).map Prod.fst).Nodup :=
    (hperm.map Prod.fst).nodup_iff.mpr hnodup0
  refine ⟨?_, ?_, ?_⟩
  · have hle := sortByKey_pairwise (encoderOfAdds adds)
    have hne : (ChangeEncoder.encode (encoderOfAdds adds)).Pairwise
        (fun x y => x.1 ≠ y.1) := List.pairwise_map.mp hnodup
    exact (hle.and hne).imp fun h => keyLt_of_keyLe_ne h.1 (h.2 ·)
  · intro k c
    rw [hperm.mem_iff, mem_iff_assocLookup _ hnodup0, encoderOfAdds_lookup]
  · intro k1 k2 _ _ h1 h2
    exact keyLt_iff_bytesLt k1 k2 h1 h2

/-- Witness for C8: a concrete add sequence with a duplicate key; the
encoder emits the sorted dedup with the later change winning. -/
theorem c8_change_encoder_encode_witness :
    ((⟨0, 5⟩, (Change.Insert 3 : Change ℕ)) ∈
        ChangeEncoder.encode (encoderOfAdds
          [(⟨1, 0⟩, .Insert 1), (⟨0, 5⟩, .Insert 2), (⟨0, 5⟩, .Insert 3)]) ↔
      lastAdded [(⟨1, 0⟩, (Change.Insert 1 : Change ℕ)), (⟨0, 5⟩, .Insert 2),
        (⟨0, 5⟩, .Insert 3)] ⟨0, 5⟩ = some (.Insert 3)) :=
  (c8_change_encoder_encode
    [(⟨1, 0⟩, .Insert 1), (⟨0, 5⟩, .Insert 2), (⟨0, 5⟩, .Insert 3)]).2.1 ⟨0, 5⟩ (.Insert 3)

/-! ### C1: the backup/working consistency invariant -/

theorem applyChange_oldChange {V : Type} (o : Option V) : applyChange (oldChange o) = o := by
  cases o <;> rfl

theorem writeChangesToWorkingTree_spec {V : Type} (cache : List ChunkDbKey) :
    ∀ (changes : List (ChunkDbKey × Change V)) (working : ChunkDbKey → Option V),
      (changes.map Prod.fst).Nodup →
      ((∀ k, k ∉ changes.map Prod.fst →
          (writeChangesToWorkingTree working cache changes).1 k = working k ∧
            k ∉ (writeChangesToWorkingTree working cache changes).2.map Prod.fst) ∧
        (∀ k, k ∈ (writeChangesToWorkingTree working cache changes).2.map Prod.fst →
          k ∈ changes.map Prod.fst ∧ k ∉ cache) ∧
        (∀ k, k ∈ changes.map Prod.fst → k ∉ cache →
          assocLookup (writeChangesToWorkingTree working cache changes).2 k =
            some (oldChange (working k))) ∧
        ((writeChangesToWorkingTree working cache changes).2.map Prod.fst).Nodup) := by
  intro changes
  induction changes with
  | nil =>
    intro working _
    refine ⟨fun k _ => ⟨rfl, by simp [writeChangesToWorkingTree]⟩, ?_, ?_, ?_⟩
    · intro k hk
      simp [writeChangesToWorkingTree] at hk
    · intro k hk
      simp at hk
    · simp [writeChangesToWorkingTree]
  | cons hd rest ih =>
    intro working hnd
    obtain ⟨k0, ch⟩ := hd
    simp only [List.map_cons, List.nodup_cons] at hnd
    obtain ⟨hk0, hndr⟩ := hnd
    set working1 : ChunkDbKey → Option V :=
      (match ch with
        | .Insert v => fupdate working k0 (some v)
        | .Remove => fupdate working k0 none) with hw1
    have hw1ne : ∀ k, k ≠ k0 → working1 k = working k := by
      intro k hk
      cases ch <;> simp [hw1, fupdate, hk]
    obtain ⟨ih1, ih2, ih3, ih4⟩ := ih working1 hndr
    have hstep : writeChangesToWorkingTree working cache ((k0, ch) :: rest) =
        (if k0 ∈ cache then (writeChangesToWorkingTree working1 cache rest).1 else
          (writeChangesToWorkingTree working1 cache rest).1,
         if k0 ∈ cache then (writeChangesToWorkingTree working1 cache rest).2 else
          (k0, oldChange (working k0)) :: (writeChangesToWorkingTree working1 cache rest).2) := by
      simp only [writeChangesToWorkingTree, ← hw1]
      by_cases hc : k0 ∈ cache
      · simp only [if_pos hc]
      · simp only [if_neg hc, oldChange]
    by_cases hc : k0 ∈ cache
    · rw [hstep]
      simp only [if_pos hc]
      refine ⟨?_, ?_, ?_, ih4⟩
      · intro k hk
        simp only [List.map_cons, List.mem_cons, not_or] at hk
        have := ih1 k hk.2
        exact ⟨(this.1.trans (hw1ne k hk.1)), this.2⟩
      · intro k hk
        have := ih2 k hk
        exact ⟨by simp [this.1], this.2⟩
      · intro k hk hkc
        simp only [List.map_cons, List.mem_cons] at hk
        rcases hk with rfl | hk
        · exact absurd hc hkc
        · rw [ih3 k hk hkc, hw1ne k (fun h => hkc (h ▸ hc))]
    · rw [hstep]
      simp only [if_neg hc]
      refine ⟨?_, ?_, ?_, ?_⟩
      · intro k hk
        simp only [List.map_cons, List.mem_cons, not_or] at hk
        have := ih1 k hk.2
        refine ⟨this.1.trans (hw1ne k hk.1), ?_⟩
        simp only [List.map_cons, List.mem_cons, not_or]
        exact ⟨hk.1, this.2⟩
      · intro k hk
        simp only [List.map_cons, List.mem_cons] at hk
        rcases hk with rfl | hk
        · exact ⟨by simp, hc⟩
        · have := ih2 k hk
          exact ⟨by simp [this.1], this.2⟩
      · intro k hk hkc
        simp only [List.map_cons, List.mem_cons] at hk
        rcases hk with rfl | hk
        · simp [assocLookup]
        · have hkne : k ≠ k0 := fun h => hk0 (h ▸ hk)
          simp only [assocLookup, if_neg hkne]
          rw [ih3 k hk hkc, hw1ne k hkne]
      · simp only [List.map_cons, List.nodup_cons]
        refine ⟨fun hmem => ?_, ih4⟩
        exact hk0 (ih2 k0 hmem).1


theorem writeChangesToBackupTree_cons {V : Type} (backup : ChunkDbKey → Option (Change V))
    (p : ChunkDbKey × Change V) (t : List (ChunkDbKey × Change V)) :
    writeChangesToBackupTree backup (p :: t) =
      writeChangesToBackupTree (fupdate backup p.1 (some p.2)) t := rfl

theorem writeChangesToBackupTree_not_mem {V : Type} (backup : ChunkDbKey → Option (Change V))
    (revs : List (ChunkDbKey × Change V)) (k : ChunkDbKey)
    (h : k ∉ revs.map Prod.fst) : writeChangesToBackupTree backup revs k = backup k := by
  induction revs generalizing backup with
  | nil => rfl
  | cons p t ih =>
    obtain ⟨k', c'⟩ := p
    simp only [List.map_cons, List.mem_cons, not_or] at h
    rw [writeChangesToBackupTree_cons, ih _ h.2]
    simp [fupdate, h.1]

theorem writeChangesToBackupTree_lookup {V : Type} (backup : ChunkDbKey → Option (Change V))
    (revs : List (ChunkDbKey × Change V)) (k : ChunkDbKey) (c : Change V)
    (hnd : (revs.map Prod.fst).Nodup) (h : assocLookup revs k = some c) :
    writeChangesToBackupTree backup revs k = some c := by
  induction revs generalizing backup with
  | nil => simp [assocLookup] at h
  | cons p t ih =>
    obtain ⟨k', c'⟩ := p
    simp only [List.map_cons, List.nodup_cons] at hnd
    simp only [assocLookup] at h
    rw [writeChangesToBackupTree_cons]
    by_cases hk : k = k'
    · rw [if_pos hk] at h
      subst hk
      rw [writeChangesToBackupTree_not_mem _ _ _ hnd.1]
      simp only [fupdate, if_pos rfl]
      exact h.symm ▸ rfl
    · rw [if_neg hk] at h
      exact ih _ hnd.2 h

theorem write_working_version_preserves_backupInv {V : Type}
    (parent : ChunkDbKey → Option V) (db : MapDb V)
    (batch : List (ChunkDbKey × Change V))
    (hinv : backupInv parent db) (hnd : (batch.map Prod.fst).Nodup) :
    backupInv parent (db.write_working_version batch) := by
  obtain ⟨hcached, hworking⟩ := hinv
  obtain ⟨hs1, hs2, hs3, hs4⟩ :=
    writeChangesToWorkingTree_spec db.backup_key_cache batch db.working_tree hnd
  set wr := writeChangesToWorkingTree db.working_tree db.backup_key_cache batch with hwr
  constructor
  · intro k hk
    simp only [MapDb.write_working_version, List.mem_append] at hk ⊢
    rcases hk with hk | hk
    · have hknotrev : k ∉ wr.2.map Prod.fst := fun hmem => (hs2 k hmem).2 hk
      obtain ⟨c, hc1, hc2⟩ := hcached k hk
      exact ⟨c, by rw [writeChangesToBackupTree_not_mem _ _ _ hknotrev]; exact hc1, hc2⟩
    · have hkb := hs2 k hk
      have hlk := hs3 k hkb.1 hkb.2
      refine ⟨oldChange (db.working_tree k), ?_, ?_⟩
      · exact writeChangesToBackupTree_lookup _ _ _ _ hs4 hlk
      · rw [applyChange_oldChange]
        exact hworking k hkb.2
  · intro k hk
    simp only [MapDb.write_working_version, List.mem_append, not_or] at hk ⊢
    obtain ⟨hkc, hkr⟩ := hk
    by_cases hkb : k ∈ batch.map Prod.fst
    · exfalso
      have hlk := hs3 k hkb hkc
      exact hkr (assocLookup_mem_keys hlk)
    · rw [(hs1 k hkb).1]
      exact hworking k hkc

/-- C1: starting from a state in which applying the backup to the working
tree recovers the parent version (in particular the state right after
`MapDb::open` of a clean database or right after a commit, where backup
and cache are empty), any sequence of `write_working_version` calls with
duplicate-free batches (as produced by `ChangeEncoder::encode`) and no
intervening commit preserves the invariant: every cached key's backup
change applies to the parent value, and every uncached key's working
value equals the parent value. -/
theorem c1_write_working_version_invariant {V : Type}
    (parent : ChunkDbKey → Option V) (db0 : MapDb V)
    (batches : List (List (ChunkDbKey × Change V)))
    (hinv : backupInv parent db0)
    (hnd : ∀ b ∈ batches, (b.map Prod.fst).Nodup) :
    backupInv parent (batches.foldl MapDb.write_working_version db0) := by
  induction batches generalizing db0 with
  | nil => exact hinv
  | cons b rest ih =>
    simp only [List.foldl_cons]
    exact ih _
      (write_working_version_preserves_backupInv parent db0 b hinv
        (hnd b (by simp)))
      (fun b' hb' => hnd b' (by simp [hb']))

/-- Witness for C1: a fresh database, one batch inserting key (0,0) and one
batch removing it and inserting at (1,0). -/
theorem c1_write_working_version_invariant_witness :
    (backupInv (fun _ => none) c9Db ∧
        ∀ b ∈ [[((⟨0, 0⟩ : ChunkDbKey), (Change.Insert 5 : Change ℕ))],
            [(⟨0, 0⟩, .Remove), (⟨1, 0⟩, .Insert 3)]],
          (b.map Prod.fst).Nodup) ∧
      backupInv (fun _ => none)
        ([[((⟨0, 0⟩ : ChunkDbKey), (Change.Insert 5 : Change ℕ))],
            [(⟨0, 0⟩, .Remove), (⟨1, 0⟩, .Insert 3)]].foldl
          MapDb.write_working_version c9Db) := by
  have hinv : backupInv (fun _ => none) c9Db :=
    ⟨fun k hk => absurd hk (by simp [c9Db]), fun k _ => rfl⟩
  have hnd : ∀ b ∈ [[((⟨0, 0⟩ : ChunkDbKey), (Change.Insert 5 : Change ℕ))],
      [(⟨0, 0⟩, .Remove), (⟨1, 0⟩, .Insert 3)]], (b.map Prod.fst).Nodup := by
    intro b hb
    simp only [List.mem_cons, List.mem_singleton] at hb
    rcases hb with rfl | rfl | h
    · simp
    · simp
    · simp at h
  exact ⟨⟨hinv, hnd⟩,
    c1_write_working_version_invariant (fun _ => none) c9Db _ hinv hnd⟩

/-! ### C4: version path-finding -/

theorem rank_parent_lt {g : VersionGraph} {rank : Version → ℕ} (hr : RankedGraph g rank)
    {v p : Version} {n : VersionNode} (hg : g v = some n) (hp : n.parent_version = some p)
    {fuel : ℕ} (hv : rank v < fuel + 1) : rank p < fuel := by
  have := hr v n p hg hp
  omega

theorem walk_err_iff {g : VersionGraph} {rank : Version → ℕ} (hr : RankedGraph g rank)
    (t : Version) :
    ∀ (fuel : ℕ) (v : Version) (acc : List Version), rank v < fuel →
      (findAncestorPathGo g t fuel v acc = .err .NoPathExistsToRoot ↔ ReachesMissing g t v) := by
  intro fuel
  induction fuel with
  | zero => intro v acc hv; omega
  | succ fuel ih =>
    intro v acc hv
    cases hg : g v with
    | none =>
      simp only [findAncestorPathGo, hg]
      exact ⟨fun _ => ReachesMissing.base hg, fun _ => trivial⟩
    | some node =>
      by_cases hvt : v = t
      · subst hvt
        simp only [findAncestorPathGo, hg, if_pos rfl]
        constructor
        · intro h; exact absurd h (by simp)
        · intro h
          cases h with
          | base hnone => rw [hg] at hnone; exact absurd hnone (by simp)
          | step _ hne _ _ => exact absurd rfl hne
      · cases hp : node.parent_version with
        | some p =>
          simp only [findAncestorPathGo, hg, if_neg hvt, hp]
          rw [ih p (acc ++ [p]) (rank_parent_lt hr hg hp hv)]
          constructor
          · intro h; exact ReachesMissing.step hg hvt hp h
          · intro h
            cases h with
            | base hnone => rw [hg] at hnone; exact absurd hnone (by simp)
            | step hg' hne hp' hrm =>
              rw [hg] at hg'
              injection hg' with hg'
              subst hg'
              rw [hp] at hp'
              injection hp' with hp'
              subst hp'
              exact hrm
        | none =>
          simp only [findAncestorPathGo, hg, if_neg hvt, hp]
          constructor
          · intro h; exact absurd h (by simp)
          · intro h
            cases h with
            | base hnone => rw [hg] at hnone; exact absurd hnone (by simp)
            | step hg' _ hp' _ =>
              rw [hg] at hg'
              injection hg' with hg'
              subst hg'
              rw [hp] at hp'
              exact absurd hp' (by simp)

theorem walk_foundRoot_spec {g : VersionGraph} {rank : Version → ℕ} (hr : RankedGraph g rank)
    (t : Version) :
    ∀ (fuel : ℕ) (v : Version) (acc : List Version) (vp : VersionPath), rank v < fuel →
      findAncestorPathGo g t fuel v acc = .ok .FoundRoot vp →
      ∃ ext r, vp.path = acc ++ ext ∧ vp.end_parent = none ∧
        List.Chain (fun a b => parentOf g a = some b) v ext ∧
        (v :: ext).getLast? = some r ∧ g r = some ⟨none⟩ ∧
        (∀ x ∈ v :: ext, x ≠ t) ∧ ReachesRoot g t v r := by
  intro fuel
  induction fuel with
  | zero => intro v acc vp hv; omega
  | succ fuel ih =>
    intro v acc vp hv hrun
    cases hg : g v with
    | none =>
      simp only [findAncestorPathGo, hg] at hrun
      exact absurd hrun (by simp)
    | some node =>
      by_cases hvt : v = t
      · subst hvt
        simp only [findAncestorPathGo, hg, if_pos rfl] at hrun
        exact absurd hrun (by simp)
      · cases hp : node.parent_version with
        | some p =>
          simp only [findAncestorPathGo, hg, if_neg hvt, hp] at hrun
          obtain ⟨ext', r, hpath, hep, hchain, hlast, hgr, hnt, hrr⟩ :=
            ih p (acc ++ [p]) vp (rank_parent_lt hr hg hp hv) hrun
          refine ⟨p :: ext', r, ?_, hep, ?_, ?_, hgr, ?_, ?_⟩
          · rw [hpath, List.append_assoc]; rfl
          · exact List.Chain.cons (by simp [parentOf, hg, hp]) hchain
          · rw [List.getLast?_cons_cons]; exact hlast
          · intro x hx
            rcases List.mem_cons.mp hx with rfl | hx'
            · exact hvt
            · exact hnt x hx'
          · exact ReachesRoot.step hg hvt hp hrr
        | none =>
          simp only [findAncestorPathGo, hg, if_neg hvt, hp] at hrun
          have hnode : node = ⟨none⟩ := by cases node; simp_all
          injection hrun with hrun1 hrun2
          subst hrun2
          refine ⟨[], v, by simp, rfl, List.Chain.nil, rfl, by rw [hg, hnode], ?_, ?_⟩
          · intro x hx
            rcases List.mem_cons.mp hx with rfl | hx'
            · exact hvt
            · simp at hx'
          · exact ReachesRoot.base hg hvt hp

theorem walk_foundRoot_complete {g : VersionGraph} {rank : Version → ℕ}
    (hr : RankedGraph g rank) (t : Version) :
    ∀ (v r : Version), ReachesRoot g t v r → ∀ (fuel : ℕ) (acc : List Version), rank v < fuel →
      ∃ ext, findAncestorPathGo g t fuel v acc = .ok .FoundRoot ⟨acc ++ ext, none⟩ ∧
        (v :: ext).getLast? = some r := by
  intro v r hrr
  induction hrr with
  | base hg hvt hp =>
    intro fuel acc hv
    match fuel, hv with
    | fuel + 1, _ =>
      refine ⟨[], ?_, rfl⟩
      simp only [findAncestorPathGo, hg, if_neg hvt, hp, List.append_nil]
  | @step v' p' r' n' hg hvt hp _ ih =>
    intro fuel acc hv
    match fuel, hv with
    | fuel + 1, hv =>
      obtain ⟨ext', hrun, hlast⟩ := ih fuel (acc ++ [p']) (rank_parent_lt hr hg hp hv)
      refine ⟨p' :: ext', ?_, ?_⟩
      · simp only [findAncestorPathGo, hg, if_neg hvt, hp, hrun, List.append_assoc]
        rfl
      · rw [List.getLast?_cons_cons]; exact hlast

theorem walk_foundEnd_spec {g : VersionGraph} {rank : Version → ℕ} (hr : RankedGraph g rank)
    (t : Version) :
    ∀ (fuel : ℕ) (v : Version) (acc : List Version) (vp : VersionPath), rank v < fuel →
      findAncestorPathGo g t fuel v acc = .ok .FoundEnd vp →
      ∃ ext, vp.path = acc ++ ext ∧
        List.Chain (fun a b => parentOf g a = some b) v ext ∧
        (v :: ext).getLast? = some t ∧ FindsTarget g t v := by
  intro fuel
  induction fuel with
  | zero => intro v acc vp hv; omega
  | succ fuel ih =>
    intro v acc vp hv hrun
    cases hg : g v with
    | none =>
      simp only [findAncestorPathGo, hg] at hrun
      exact absurd hrun (by simp)
    | some node =>
      by_cases hvt : v = t
      · subst hvt
        simp only [findAncestorPathGo, hg, if_pos rfl] at hrun
        injection hrun with hrun1 hrun2
        subst hrun2
        exact ⟨[], by simp, List.Chain.nil, rfl, FindsTarget.base hg⟩
      · cases hp : node.parent_version with
        | some p =>
          simp only [findAncestorPathGo, hg, if_neg hvt, hp] at hrun
          obtain ⟨ext', hpath, hchain, hlast, hft⟩ :=
            ih p (acc ++ [p]) vp (rank_parent_lt hr hg hp hv) hrun
          refine ⟨p :: ext', ?_, ?_, ?_, ?_⟩
          · rw [hpath, List.append_assoc]; rfl
          · exact List.Chain.cons (by simp [parentOf, hg, hp]) hchain
          · rw [List.getLast?_cons_cons]; exact hlast
          · exact FindsTarget.step hg hvt hp hft
        | none =>
          simp only [findAncestorPathGo, hg, if_neg hvt, hp] at hrun
          exact absurd hrun (by simp)

theorem ancestor_of_mem_chain (g : VersionGraph) :
    ∀ (ext : List Version) (v c : Version),
      List.Chain (fun a b => parentOf g a = some b) v ext → c ∈ v :: ext →
      Ancestor g v c := by
  intro ext
  induction ext with
  | nil =>
    intro v c _ hc
    rcases List.mem_cons.mp hc with rfl | h
    · exact Ancestor.refl
    · simp at h
  | cons p rest ih =>
    intro v c hchain hc
    cases hchain with
    | cons hvp hrest =>
      rcases List.mem_cons.mp hc with rfl | h
      · exact Ancestor.refl
      · exact Ancestor.step hvp (ih p c hrest h)

theorem mem_of_ancestor_complete (g : VersionGraph) :
    ∀ (ext : List Version) (v r c : Version),
      List.Chain (fun a b => parentOf g a = some b) v ext →
      (v :: ext).getLast? = some r → parentOf g r = none →
      Ancestor g v c → c ∈ v :: ext := by
  intro ext
  induction ext with
  | nil =>
    intro v r c _ hlast hroot hanc
    simp only [List.getLast?_singleton, Option.some.injEq] at hlast
    subst hlast
    cases hanc with
    | refl => simp
    | step hp _ => rw [hroot] at hp; exact absurd hp (by simp)
  | cons p rest ih =>
    intro v r c hchain hlast hroot hanc
    cases hchain with
    | cons hvp hrest =>
      cases hanc with
      | refl => simp
      | step hp hanc' =>
        rw [hvp] at hp
        injection hp with hp
        subst hp
        rw [List.getLast?_cons_cons] at hlast
        exact List.mem_cons_of_mem v (ih p r c hrest hlast hroot hanc')

theorem chain_suffix_of_mem (g : VersionGraph) :
    ∀ (ext : List Version) (v c : Version),
      List.Chain (fun a b => parentOf g a = some b) v ext → c ∈ v :: ext →
      ∃ ext', (c :: ext') <:+ (v :: ext) ∧
        List.Chain (fun a b => parentOf g a = some b) c ext' := by
  intro ext
  induction ext with
  | nil =>
    intro v c _ hc
    rcases List.mem_cons.mp hc with rfl | h
    · exact ⟨[], List.suffix_refl _, List.Chain.nil⟩
    · simp at h
  | cons p rest ih =>
    intro v c hchain hc
    cases hchain with
    | cons hvp hrest =>
      rcases List.mem_cons.mp hc with rfl | h
      · exact ⟨p :: rest, List.suffix_refl _, List.Chain.cons hvp hrest⟩
      · obtain ⟨ext', hsuf, hchain'⟩ := ih p c hrest h
        exact ⟨ext', hsuf.trans (List.suffix_cons v (p :: rest)), hchain'⟩

theorem chain_complete_unique (g : VersionGraph) :
    ∀ (ext1 : List Version) (c r1 r2 : Version) (ext2 : List Version),
      List.Chain (fun a b => parentOf g a = some b) c ext1 →
      (c :: ext1).getLast? = some r1 → parentOf g r1 = none →
      List.Chain (fun a b => parentOf g a = some b) c ext2 →
      (c :: ext2).getLast? = some r2 → parentOf g r2 = none →
      ext1 = ext2 := by
  intro ext1
  induction ext1 with
  | nil =>
    intro c r1 r2 ext2 _ hlast1 hroot1 hchain2 hlast2 _
    simp only [List.getLast?_singleton, Option.some.injEq] at hlast1
    subst hlast1
    cases hchain2 with
    | nil => rfl
    | cons hp _ => rw [hroot1] at hp; exact absurd hp (by simp)
  | cons p rest ih =>
    intro c r1 r2 ext2 hchain1 hlast1 hroot1 hchain2 hlast2 hroot2
    cases hchain1 with
    | cons hcp hrest1 =>
      cases hchain2 with
      | nil =>
        simp only [List.getLast?_singleton, Option.some.injEq] at hlast2
        subst hlast2
        rw [hroot2] at hcp
        exact absurd hcp (by simp)
      | @cons _ p2 _ hcp2 hrest2 =>
        rw [hcp] at hcp2
        injection hcp2 with hcp2
        subst hcp2
        rw [List.getLast?_cons_cons] at hlast1 hlast2
        rw [ih p r1 r2 _ hrest1 hlast1 hroot1 hrest2 hlast2 hroot2]

theorem commonAgree_le_left : ∀ (xs ys : List Version), commonAgree xs ys ≤ xs.length := by
  intro xs
  induction xs with
  | nil => intro ys; cases ys <;> simp [commonAgree]
  | cons a as ih =>
    intro ys
    cases ys with
    | nil => simp [commonAgree]
    | cons b bs =>
      simp only [commonAgree, List.length_cons]
      split
      · have := ih bs; omega
      · omega

theorem commonAgree_le_right : ∀ (xs ys : List Version), commonAgree xs ys ≤ ys.length := by
  intro xs
  induction xs with
  | nil => intro ys; cases ys <;> simp [commonAgree]
  | cons a as ih =>
    intro ys
    cases ys with
    | nil => simp [commonAgree]
    | cons b bs =>
      simp only [commonAgree, List.length_cons]
      split
      · have := ih bs; omega
      · omega

theorem commonAgree_take : ∀ (xs ys : List Version),
    xs.take (commonAgree xs ys) = ys.take (commonAgree xs ys) := by
  intro xs
  induction xs with
  | nil => intro ys; cases ys <;> simp [commonAgree]
  | cons a as ih =>
    intro ys
    cases ys with
    | nil => simp [commonAgree]
    | cons b bs =>
      simp only [commonAgree]
      split
      · rename_i hab
        subst hab
        simp only [List.take_succ_cons]
        rw [ih bs]
      · simp

theorem commonAgree_pos {a : Version} {as bs : List Version} :
    1 ≤ commonAgree (a :: as) (a :: bs) := by
  simp [commonAgree]

theorem le_commonAgree_of_common_pre :
    ∀ (p xs ys : List Version), p <+: xs → p <+: ys → p.length ≤ commonAgree xs ys := by
  intro p
  induction p with
  | nil => intro xs ys _ _; simp
  | cons a p' ih =>
    intro xs ys hx hy
    obtain ⟨tx, htx⟩ := hx
    obtain ⟨ty, hty⟩ := hy
    subst htx
    subst hty
    rw [List.cons_append, List.cons_append]
    have hstep : commonAgree (a :: (p' ++ tx)) (a :: (p' ++ ty)) =
        commonAgree (p' ++ tx) (p' ++ ty) + 1 := by
      simp [commonAgree]
    rw [hstep, List.length_cons]
    have := ih (p' ++ tx) (p' ++ ty) ⟨tx, rfl⟩ ⟨ty, rfl⟩
    omega

theorem downEnumFrom_append (i : ℕ) :
    ∀ (xs ys : List Version),
      downEnumFrom i (xs ++ ys) = downEnumFrom (i + ys.length) xs ++ downEnumFrom i ys := by
  intro xs ys
  induction xs with
  | nil => simp [downEnumFrom]
  | cons a t ih =>
    simp only [List.cons_append, downEnumFrom, ih, List.append_eq, List.length_append]
    have harith : i + (t.length + ys.length) = i + ys.length + t.length := by omega
    rw [harith]

theorem enumFrom_reverse : ∀ (l : List Version) (i : ℕ),
    (l.enumFrom i).reverse = downEnumFrom i l.reverse := by
  intro l
  induction l with
  | nil => intro i; rfl
  | cons a t ih =>
    intro i
    simp only [List.enumFrom_cons, List.reverse_cons, ih, downEnumFrom_append,
      List.length_singleton]
    rfl

theorem enum_reverse (l : List Version) : l.enum.reverse = downEnumFrom 0 l.reverse :=
  enumFrom_reverse l 0

theorem joinsGo_downEnum :
    ∀ (xs ys : List Version) (acc : ℕ × ℕ),
      joinsGo ((downEnumFrom 0 xs).zip (downEnumFrom 0 ys)) acc =
        if commonAgree xs ys = 0 then acc
        else (xs.length - commonAgree xs ys, ys.length - commonAgree xs ys) := by
  intro xs
  induction xs with
  | nil => intro ys acc; cases ys <;> simp [downEnumFrom, joinsGo, commonAgree]
  | cons a xs' ih =>
    intro ys acc
    cases ys with
    | nil => simp [downEnumFrom, joinsGo, commonAgree]
    | cons b ys' =>
      simp only [downEnumFrom, List.zip_cons_cons, joinsGo, commonAgree, Nat.zero_add]
      by_cases hab : a = b
      · subst hab
        rw [if_neg (by simp)]
        simp only [eq_self_iff_true, if_true]
        have hzip : joinsGo (List.zipWith Prod.mk (downEnumFrom 0 xs') (downEnumFrom 0 ys'))
            (xs'.length, ys'.length) =
            if commonAgree xs' ys' = 0 then (xs'.length, ys'.length)
            else (xs'.length - commonAgree xs' ys', ys'.length - commonAgree xs' ys') :=
          ih ys' (xs'.length, ys'.length)
        rw [hzip]
        by_cases hc : commonAgree xs' ys' = 0
        · rw [if_pos hc, if_neg (by omega)]
          simp [hc]
        · rw [if_neg hc, if_neg (by omega)]
          have h1 := commonAgree_le_left xs' ys'
          have h2 := commonAgree_le_right xs' ys'
          simp only [List.length_cons, Prod.mk.injEq]
          omega
      · rw [if_pos hab, if_neg hab, if_pos rfl]

theorem computeJoins_eq (sp ep : List Version) :
    computeJoins sp ep =
      if commonAgree sp.reverse ep.reverse = 0 then (0, 0)
      else (sp.length - commonAgree sp.reverse ep.reverse,
            ep.length - commonAgree sp.reverse ep.reverse) := by
  unfold computeJoins
  rw [enum_reverse, enum_reverse, joinsGo_downEnum]
  simp [List.length_reverse]

theorem drop_sub_eq_reverse_take (l : List Version) (c : ℕ) :
    l.drop (l.length - c) = (l.reverse.take c).reverse := by
  rw [← List.reverse_inj, List.reverse_reverse, List.reverse_drop]
  rcases le_or_lt c l.length with h | h
  · congr 1
    omega
  · rw [List.take_of_length_le (by simp; omega), List.take_of_length_le (by simp; omega)]

theorem suffix_getLast? {c : Version} {l' l : List Version} (h : (c :: l') <:+ l) :
    l.getLast? = (c :: l').getLast? := by
  obtain ⟨pre, rfl⟩ := h
  rw [List.getLast?_append]
  cases hx : (c :: l').getLast? with
  | none => simp at hx
  | some x => simp

theorem parentLinked_flip {g : VersionGraph} {a b : Version} (h : parentLinked g a b) :
    parentLinked g b a := h.symm

/-- The spliced path built by `find_path_between_versions` out of a complete
start chain and a complete end chain sharing the root `r`: it runs from
`s` to `e`, every consecutive pair is parent-linked, and it passes
through the nearest common ancestor. -/
theorem splice_path_spec (g : VersionGraph) (s e r : Version) (ext1 ext2 : List Version)
    (hchain1 : List.Chain (fun a b => parentOf g a = some b) s ext1)
    (hlast1 : (s :: ext1).getLast? = some r)
    (hroot : parentOf g r = none)
    (hne : ∀ x ∈ s :: ext1, x ≠ e)
    (hchain2 : List.Chain (fun a b => parentOf g a = some b) e ext2)
    (hlast2 : (e :: ext2).getLast? = some r) :
    ((s :: ext1).take ((computeJoins (s :: ext1) (e :: ext2)).1 + 1) ++
        ((e :: ext2).take ((computeJoins (s :: ext1) (e :: ext2)).2)).reverse).head? = some s ∧
      ((s :: ext1).take ((computeJoins (s :: ext1) (e :: ext2)).1 + 1) ++
        ((e :: ext2).take ((computeJoins (s :: ext1) (e :: ext2)).2)).reverse).getLast? = some e ∧
      ((s :: ext1).take ((computeJoins (s :: ext1) (e :: ext2)).1 + 1) ++
        ((e :: ext2).take ((computeJoins (s :: ext1) (e :: ext2)).2)).reverse).Chain'
        (parentLinked g) ∧
      ∃ m ∈ (s :: ext1).take ((computeJoins (s :: ext1) (e :: ext2)).1 + 1) ++
        ((e :: ext2).take ((computeJoins (s :: ext1) (e :: ext2)).2)).reverse,
        IsNearestCommonAncestor g s e m := by
  set SP := s :: ext1 with hSP
  set EP := e :: ext2 with hEP
  set n1 := SP.length with hn1
  set n2 := EP.length with hn2
  set c := commonAgree SP.reverse EP.reverse with hc
  -- both reversed chains start with the root `r`
  have hrevS : SP.reverse.head? = some r := by rw [List.head?_reverse]; exact hlast1
  have hrevE : EP.reverse.head? = some r := by rw [List.head?_reverse]; exact hlast2
  obtain ⟨tl1, htl1⟩ : ∃ tl1, SP.reverse = r :: tl1 := by
    cases h : SP.reverse with
    | nil => rw [h] at hrevS; simp at hrevS
    | cons x tl =>
      rw [h] at hrevS
      simp only [List.head?_cons, Option.some.injEq] at hrevS
      exact ⟨tl, by rw [hrevS]⟩
  obtain ⟨tl2, htl2⟩ : ∃ tl2, EP.reverse = r :: tl2 := by
    cases h : EP.reverse with
    | nil => rw [h] at hrevE; simp at hrevE
    | cons x tl =>
      rw [h] at hrevE
      simp only [List.head?_cons, Option.some.injEq] at hrevE
      exact ⟨tl, by rw [hrevE]⟩
  have hcpos : 1 ≤ c := by rw [hc, htl1, htl2]; exact commonAgree_pos
  have hcle1 : c ≤ n1 := by
    have := commonAgree_le_left SP.reverse EP.reverse
    simpa [List.length_reverse] using this
  have hcle2 : c ≤ n2 := by
    have := commonAgree_le_right SP.reverse EP.reverse
    simpa [List.length_reverse] using this
  have hn1pos : 1 ≤ n1 := by rw [hn1, hSP]; simp
  have hn2pos : 1 ≤ n2 := by rw [hn2, hEP]; simp
  -- `c < n2`, else the whole end chain is a suffix of the start chain and
  -- `e` would appear on the start chain
  have hclt2 : c < n2 := by
    rcases lt_or_eq_of_le hcle2 with h | h
    · exact h
    · exfalso
      have htake : SP.reverse.take c = EP.reverse.take c := commonAgree_take _ _
      have hfull : EP.reverse.take c = EP.reverse := by
        apply List.take_of_length_le
        simp [List.length_reverse, ← hn2, h]
      have hmem : e ∈ EP.reverse := by
        rw [hEP]
        simp
      rw [← hfull, ← htake] at hmem
      have : e ∈ SP := by
        have := List.mem_of_mem_take hmem
        simpa using this
      exact hne e this rfl
  have hjoins : computeJoins SP EP = (n1 - c, n2 - c) := by
    rw [computeJoins_eq, if_neg (by omega)]
  set sj := n1 - c with hsj
  set fj := n2 - c with hfj
  have hsjlt : sj < n1 := by omega
  have hfjpos : 1 ≤ fj := by omega
  have hfjlt : fj < n2 := by omega
  -- the common suffix of both chains
  have hsufeq : SP.drop sj = EP.drop fj := by
    show SP.drop (SP.length - c) = EP.drop (EP.length - c)
    rw [drop_sub_eq_reverse_take, drop_sub_eq_reverse_take, commonAgree_take]
  -- the splice element `m`
  have hdroplen : 1 ≤ (SP.drop sj).length := by
    simp only [List.length_drop]
    omega
  obtain ⟨m, tail, hmtail⟩ : ∃ m tail, SP.drop sj = m :: tail := by
    cases h : SP.drop sj with
    | nil => rw [h] at hdroplen; simp at hdroplen
    | cons m tail => exact ⟨m, tail, rfl⟩
  have hmS : SP[sj]? = some m := by
    rw [← List.head?_drop, hmtail, List.head?_cons]
  have hmE : EP[fj]? = some m := by
    rw [← List.head?_drop, ← hsufeq, hmtail, List.head?_cons]
  have htakelast : (SP.take (sj + 1)).getLast? = some m := by
    rw [List.take_succ, hmS]
    simp [List.getLast?_append]
  -- the head of the end prefix is `e`
  obtain ⟨fj', hfj'⟩ : ∃ fj', fj = fj' + 1 := ⟨fj - 1, by omega⟩
  have hheadE : (EP.take fj).head? = some e := by
    rw [hEP, hfj', List.take_succ_cons, List.head?_cons]
  -- chains as `Chain'`
  have hchainSP : SP.Chain' (fun a b => parentOf g a = some b) := hchain1
  have hchainEP : EP.Chain' (fun a b => parentOf g a = some b) := hchain2
  rw [hjoins]
  have hheadpath :
      ((SP.take (sj + 1)) ++ ((EP.take fj).reverse)).head? = some s := by
    have : (SP.take (sj + 1)).head? = some s := by
      rw [hSP, List.take_succ_cons, List.head?_cons]
    rw [List.head?_append, this]
    rfl
  have hlastpath :
      ((SP.take (sj + 1)) ++ ((EP.take fj).reverse)).getLast? = some e := by
    rw [List.getLast?_append, List.getLast?_reverse, hheadE]
    rfl
  refine ⟨hheadpath, hlastpath, ?_, ?_⟩
  · -- the spliced path is a chain of parent links
    rw [List.chain'_append]
    refine ⟨?_, ?_, ?_⟩
    · exact (( hchainSP.prefix (List.take_prefix _ _)).imp fun _ _ h => Or.inl h)
    · rw [List.chain'_reverse]
      exact (( hchainEP.prefix (List.take_prefix _ _)).imp fun _ _ h => Or.inr h)
    · intro x hx y hy
      rw [htakelast] at hx
      simp only [Option.mem_def, Option.some.injEq] at hx
      subst hx
      rw [List.head?_reverse] at hy
      -- `y` is the element of the end chain just before the splice point
      obtain ⟨w, hw⟩ : ∃ w, EP[fj']? = some w := by
        have hlt : fj' < EP.length := by omega
        exact ⟨EP.get ⟨fj', hlt⟩, by rw [List.getElem?_eq_getElem hlt]; rfl⟩
      have hylast : (EP.take fj).getLast? = some w := by
        rw [hfj', List.take_succ, hw]
        simp [List.getLast?_append]
      rw [hylast] at hy
      simp only [Option.mem_def, Option.some.injEq] at hy
      subst hy
      -- the parent link from `w` to the splice element `m`
      right
      cases hdd : EP.drop fj' with
      | nil =>
        exfalso
        have : (EP.drop fj').length = 0 := by rw [hdd]; rfl
        rw [List.length_drop] at this
        omega
      | cons a tl =>
        have ha : a = w := by
          have h1 := List.head?_drop EP fj'
          rw [hdd, hw] at h1
          simpa using h1
        have htl2 : tl = m :: tail := by
          have h1 : (EP.drop fj').tail = tl := by rw [hdd]; rfl
          rw [List.tail_drop, ← hfj', ← hsufeq, hmtail] at h1
          exact h1.symm
        have hchaindrop : (EP.drop fj').Chain' (fun a b => parentOf g a = some b) :=
          hchainEP.suffix (List.drop_suffix _ _)
        rw [hdd, ha, htl2] at hchaindrop
        exact (List.chain'_cons.mp hchaindrop).1
  · -- the splice element is the nearest common ancestor
    have hmmem : m ∈ SP.take (sj + 1) := by
      obtain ⟨hne', heq⟩ :=
        List.mem_getLast?_eq_getLast (l := SP.take (sj + 1)) (x := m) htakelast
      rw [heq]
      exact List.getLast_mem _
    refine ⟨m, List.mem_append_left _ hmmem, ?_, ?_, ?_⟩
    · exact ancestor_of_mem_chain g ext1 s m hchain1
        (by simpa [hSP] using List.mem_of_mem_take hmmem)
    · exact ancestor_of_mem_chain g ext2 e m hchain2
        (by simpa [hEP] using List.getElem?_mem hmE)
    · intro c' hcs hce
      have hcS : c' ∈ SP := mem_of_ancestor_complete g ext1 s r c' hchain1 hlast1 hroot hcs
      have hcE : c' ∈ EP := mem_of_ancestor_complete g ext2 e r c' hchain2 hlast2 hroot hce
      obtain ⟨extA, hsufA, hchainA⟩ := chain_suffix_of_mem g ext1 s c' hchain1 hcS
      obtain ⟨extB, hsufB, hchainB⟩ := chain_suffix_of_mem g ext2 e c' hchain2 hcE
      have hlastA : (c' :: extA).getLast? = some r := by
        rw [← suffix_getLast? hsufA]; exact hlast1
      have hlastB : (c' :: extB).getLast? = some r := by
        rw [← suffix_getLast? hsufB]; exact hlast2
      have hAB : extA = extB :=
        chain_complete_unique g extA c' r r extB hchainA hlastA hroot hchainB hlastB hroot
      subst hAB
      -- the common chain from `c'` is a common suffix, hence lies inside the
      -- agreed suffix of length `c`
      have hpreS : (c' :: extA).reverse <+: SP.reverse := List.reverse_prefix.mpr hsufA
      have hpreE : (c' :: extA).reverse <+: EP.reverse := List.reverse_prefix.mpr hsufB
      have hlenle : (c' :: extA).length ≤ c := by
        have := le_commonAgree_of_common_pre (c' :: extA).reverse SP.reverse EP.reverse
          hpreS hpreE
        simpa [List.length_reverse] using this
      have hsufdrop : (c' :: extA) <:+ SP.drop sj := by
        rw [← List.reverse_prefix]
        have hdroprev : (SP.drop sj).reverse = SP.reverse.take c := by
          rw [List.reverse_drop, ← hn1]
          congr 1
          omega
        rw [hdroprev]
        refine List.prefix_of_prefix_length_le hpreS (List.take_prefix _ _) ?_
        have hlen : (SP.reverse.take c).length = c := by
          simp [List.length_reverse, ← hn1]
          omega
        rw [hlen, List.length_reverse]
        exact hlenle
      have hcdrop : c' ∈ SP.drop sj := hsufdrop.mem (by simp)
      -- walk from `m` inside the common suffix
      have hchainm : List.Chain (fun a b => parentOf g a = some b) m tail := by
        have := hchainSP.suffix (List.drop_suffix sj SP)
        rw [hmtail] at this
        exact this
      rw [hmtail] at hcdrop
      exact ancestor_of_mem_chain g tail m c' hchainm hcdrop

theorem walk_ne_outOfFuel {g : VersionGraph} {rank : Version → ℕ} (hr : RankedGraph g rank)
    (t : Version) :
    ∀ (fuel : ℕ) (v : Version) (acc : List Version), rank v < fuel →
      findAncestorPathGo g t fuel v acc ≠ .outOfFuel := by
  intro fuel
  induction fuel with
  | zero => intro v acc hv; omega
  | succ fuel ih =>
    intro v acc hv
    cases hg : g v with
    | none => simp [findAncestorPathGo, hg]
    | some node =>
      by_cases hvt : v = t
      · subst hvt
        simp [findAncestorPathGo, hg]
      · cases hp : node.parent_version with
        | some p =>
          simp only [findAncestorPathGo, hg, if_neg hvt, hp]
          exact ih p (acc ++ [p]) (rank_parent_lt hr hg hp hv)
        | none => simp [findAncestorPathGo, hg, if_neg hvt, hp]

theorem walk_err_reason {g : VersionGraph} (t : Version) :
    ∀ (fuel : ℕ) (v : Version) (acc : List Version) (r : AbortReason),
      findAncestorPathGo g t fuel v acc = .err r → r = .NoPathExistsToRoot := by
  intro fuel
  induction fuel with
  | zero => intro v acc r h; exact absurd h (by simp [findAncestorPathGo])
  | succ fuel ih =>
    intro v acc r h
    cases hg : g v with
    | none =>
      simp only [findAncestorPathGo, hg] at h
      injection h with h
      exact h.symm
    | some node =>
      by_cases hvt : v = t
      · subst hvt
        simp only [findAncestorPathGo, hg, if_pos rfl] at h
        exact absurd h (by simp)
      · cases hp : node.parent_version with
        | some p =>
          simp only [findAncestorPathGo, hg, if_neg hvt, hp] at h
          exact ih p (acc ++ [p]) r h
        | none =>
          simp only [findAncestorPathGo, hg, if_neg hvt, hp] at h
          exact absurd h (by simp)

theorem foundRoot_det {g : VersionGraph} {rank : Version → ℕ} (hr : RankedGraph g rank)
    {t s r0 r : Version} {fuel : ℕ} {sp : VersionPath}
    (hrr0 : ReachesRoot g t s r0)
    (h1 : findAncestorPathGo g t fuel s [s] = .ok .FoundRoot sp)
    (hs : rank s < fuel) (hlast : sp.path.getLast? = some r) : r0 = r := by
  obtain ⟨ext0, hrun0, hlast0⟩ := walk_foundRoot_complete hr t s r0 hrr0 fuel [s] hs
  rw [h1] at hrun0
  injection hrun0 with hpr hvp
  rw [hvp] at hlast
  simp only [List.singleton_append] at hlast
  exact Option.some.inj (hlast0.symm.trans hlast)

/-- C4: `find_path_between_versions` (on an acyclic version graph with
enough fuel for both walks) aborts with `NoPathExistsToRoot` exactly when
one of the two ancestor walks hits a version with no graph entry, aborts
with `NoPathExists` exactly when both walks complete but reach different
roots, and otherwise returns a path running from `start` to `end` whose
consecutive entries are parent-linked and which passes through the
nearest common ancestor. -/
theorem c4_find_path_between_versions (g : VersionGraph) (rank : Version → ℕ)
    (fuel : ℕ) (s e : Version) (hr : RankedGraph g rank)
    (hs : rank s < fuel) (he : rank e < fuel) :
    (find_path_between_versions fuel g s e = .err .NoPathExistsToRoot ↔
        (ReachesMissing g e s ∨ ∃ r, ReachesRoot g e s r ∧ ReachesMissing g r e)) ∧
      (find_path_between_versions fuel g s e = .err .NoPathExists ↔
        (∃ r r2, ReachesRoot g e s r ∧ ReachesRoot g r e r2 ∧ r ≠ r2)) ∧
      (∀ vp, find_path_between_versions fuel g s e = .ok vp →
        vp.path.head? = some s ∧ vp.path.getLast? = some e ∧
        vp.path.Chain' (parentLinked g) ∧
        ∃ m ∈ vp.path, IsNearestCommonAncestor g s e m) := by
  unfold find_path_between_versions find_ancestor_path
  cases h1 : findAncestorPathGo g e fuel s [s] with
  | outOfFuel => exact absurd h1 (walk_ne_outOfFuel hr e fuel s [s] hs)
  | err r1 =>
    have hr1 := walk_err_reason e fuel s [s] r1 h1
    subst hr1
    have hrm : ReachesMissing g e s := (walk_err_iff hr e fuel s [s] hs).mp h1
    refine ⟨iff_of_true rfl (Or.inl hrm), ?_, ?_⟩
    · refine iff_of_false (by simp) ?_
      rintro ⟨r, r2, hrr, -, -⟩
      obtain ⟨ext, hrun, -⟩ := walk_foundRoot_complete hr e s r hrr fuel [s] hs
      rw [h1] at hrun
      exact absurd hrun (by simp)
    · intro vp h
      exact absurd h (by simp)
  | ok pr1 sp =>
    cases pr1 with
    | FoundEnd =>
      obtain ⟨ext1, hpath1, hchain1, hlast1, hft⟩ :=
        walk_foundEnd_spec hr e fuel s [s] sp hs h1
      have hpath1' : sp.path = s :: ext1 := by rw [hpath1]; rfl
      refine ⟨?_, ?_, ?_⟩
      · refine iff_of_false (by simp) ?_
        rintro (hrm | ⟨r, hrr, -⟩)
        · have hcontra := (walk_err_iff hr e fuel s [s] hs).mpr hrm
          rw [h1] at hcontra
          exact absurd hcontra (by simp)
        · obtain ⟨ext, hrun, -⟩ := walk_foundRoot_complete hr e s r hrr fuel [s] hs
          rw [h1] at hrun
          exact absurd hrun (by simp)
      · refine iff_of_false (by simp) ?_
        rintro ⟨r, r2, hrr, -, -⟩
        obtain ⟨ext, hrun, -⟩ := walk_foundRoot_complete hr e s r hrr fuel [s] hs
        rw [h1] at hrun
        exact absurd hrun (by simp)
      · intro vp hvp
        injection hvp with hvp
        subst hvp
        have hchain' : sp.path.Chain' (fun a b => parentOf g a = some b) := by
          rw [hpath1']
          exact hchain1
        refine ⟨by rw [hpath1']; rfl, by rw [hpath1']; exact hlast1,
          hchain'.imp fun _ _ h => Or.inl h, ?_⟩
        have hemem : e ∈ s :: ext1 := by
          obtain ⟨hne', heq⟩ := List.mem_getLast?_eq_getLast (l := s :: ext1) (x := e) hlast1
          rw [heq]
          exact List.getLast_mem _
        refine ⟨e, by rw [hpath1']; exact hemem,
          ancestor_of_mem_chain g ext1 s e hchain1 hemem, Ancestor.refl, ?_⟩
        intro c _ hc
        exact hc
    | FoundRoot =>
      obtain ⟨ext1, r, hpath1, hep1, hchain1, hlast1, hgr, hne1, hrr1⟩ :=
        walk_foundRoot_spec hr e fuel s [s] sp hs h1
      have hpath1' : sp.path = s :: ext1 := by rw [hpath1]; rfl
      have hlastsp : sp.path.getLast? = some r := by rw [hpath1']; exact hlast1
      have hroot : parentOf g r = none := by simp [parentOf, hgr]
      have hgetlast : sp.path.getLast! = r := List.getLast!_of_getLast? hlastsp
      simp only []
      rw [hgetlast]
      cases h2 : findAncestorPathGo g r fuel e [e] with
      | outOfFuel => exact absurd h2 (walk_ne_outOfFuel hr r fuel e [e] he)
      | err r2 =>
        have hr2 := walk_err_reason r fuel e [e] r2 h2
        subst hr2
        have hrm2 : ReachesMissing g r e := (walk_err_iff hr r fuel e [e] he).mp h2
        refine ⟨iff_of_true rfl (Or.inr ⟨r, hrr1, hrm2⟩), ?_, ?_⟩
        · refine iff_of_false (by simp) ?_
          rintro ⟨r0, r0', hrr0, hrr0', -⟩
          have hr0 : r0 = r := foundRoot_det hr hrr0 h1 hs hlastsp
          subst hr0
          obtain ⟨ext0, hrun0, -⟩ := walk_foundRoot_complete hr r0 e r0' hrr0' fuel [e] he
          rw [h2] at hrun0
          exact absurd hrun0 (by simp)
        · intro vp h
          exact absurd h (by simp)
      | ok pr2 ep =>
        cases pr2 with
        | FoundEnd =>
          obtain ⟨ext2, hpath2, hchain2, hlast2, hft2⟩ :=
            walk_foundEnd_spec hr r fuel e [e] ep he h2
          have hpath2' : ep.path = e :: ext2 := by rw [hpath2]; rfl
          have hlastep : ep.path.getLast? = some r := by rw [hpath2']; exact hlast2
          have hgetlast2 : ep.path.getLast! = r := List.getLast!_of_getLast? hlastep
          simp only []
          rw [hgetlast2, if_neg (by simp)]
          have hsplice := splice_path_spec g s e r ext1 ext2 hchain1 hlast1 hroot hne1
            hchain2 hlast2
          refine ⟨?_, ?_, ?_⟩
          · refine iff_of_false (by simp) ?_
            rintro (hrm | ⟨r0, hrr0, hrm0⟩)
            · have hcontra := (walk_err_iff hr e fuel s [s] hs).mpr hrm
              rw [h1] at hcontra
              exact absurd hcontra (by simp)
            · have hr0 : r0 = r := foundRoot_det hr hrr0 h1 hs hlastsp
              subst hr0
              have hcontra := (walk_err_iff hr r0 fuel e [e] he).mpr hrm0
              rw [h2] at hcontra
              exact absurd hcontra (by simp)
          · refine iff_of_false (by simp) ?_
            rintro ⟨r0, r0', hrr0, hrr0', hne0⟩
            have hr0 : r0 = r := foundRoot_det hr hrr0 h1 hs hlastsp
            subst hr0
            obtain ⟨ext0, hrun0, -⟩ := walk_foundRoot_complete hr r0 e r0' hrr0' fuel [e] he
            rw [h2] at hrun0
            exact absurd hrun0 (by simp)
          · intro vp hvp
            injection hvp with hvp
            subst hvp
            simp only [hpath1', hpath2']
            exact hsplice
        | FoundRoot =>
          obtain ⟨ext2, r2, hpath2, hep2, hchain2, hlast2, hgr2, hne2, hrr2⟩ :=
            walk_foundRoot_spec hr r fuel e [e] ep he h2
          have hpath2' : ep.path = e :: ext2 := by rw [hpath2]; rfl
          have hlastep : ep.path.getLast? = some r2 := by rw [hpath2']; exact hlast2
          have hgetlast2 : ep.path.getLast! = r2 := List.getLast!_of_getLast? hlastep
          simp only []
          rw [hgetlast2]
          have hner : r ≠ r2 := by
            intro hcontra
            have hmem : r2 ∈ e :: ext2 := by
              obtain ⟨h0, heq⟩ := List.mem_getLast?_eq_getLast (l := e :: ext2) (x := r2) hlast2
              rw [heq]
              exact List.getLast_mem _
            exact hne2 r2 hmem hcontra.symm
          rw [if_pos hner]
          refine ⟨?_, iff_of_true rfl ⟨r, r2, hrr1, hrr2, hner⟩, ?_⟩
          · refine iff_of_false (by simp) ?_
            rintro (hrm | ⟨r0, hrr0, hrm0⟩)
            · have hcontra := (walk_err_iff hr e fuel s [s] hs).mpr hrm
              rw [h1] at hcontra
              exact absurd hcontra (by simp)
            · have hr0 : r0 = r := foundRoot_det hr hrr0 h1 hs hlastsp
              subst hr0
              have hcontra := (walk_err_iff hr r0 fuel e [e] he).mpr hrm0
              rw [h2] at hcontra
              exact absurd hcontra (by simp)
          · intro vp h
            exact absurd h (by simp)

theorem c4Graph_ranked : RankedGraph c4Graph Version.number := by
  intro v n p hg hp
  unfold c4Graph at hg
  split_ifs at hg with h0 h1 h2
  · injection hg with hg
    subst hg
    exact absurd hp (by simp)
  · injection hg with hg
    subst hg
    injection hp with hp
    have hp0 : p.number = 0 := by rw [← hp]
    rw [hp0, h1]
    omega
  · injection hg with hg
    subst hg
    injection hp with hp
    have hp0 : p.number = 0 := by rw [← hp]
    rw [hp0, h2]
    omega

/-- Witness for C4: the three-version graph `c4Graph` is ranked by the
version number, versions 1 and 2 are within fuel 5, and the trichotomy
holds for `find_path_between_versions 5 c4Graph 1 2`. -/
theorem c4_find_path_between_versions_witness :
    RankedGraph c4Graph Version.number ∧
      Version.number ⟨1⟩ < 5 ∧ Version.number ⟨2⟩ < 5 ∧
      ((find_path_between_versions 5 c4Graph ⟨1⟩ ⟨2⟩ = .err .NoPathExistsToRoot ↔
          (ReachesMissing c4Graph ⟨2⟩ ⟨1⟩ ∨
            ∃ r, ReachesRoot c4Graph ⟨2⟩ ⟨1⟩ r ∧ ReachesMissing c4Graph r ⟨2⟩)) ∧
        (find_path_between_versions 5 c4Graph ⟨1⟩ ⟨2⟩ = .err .NoPathExists ↔
          (∃ r r2, ReachesRoot c4Graph ⟨2⟩ ⟨1⟩ r ∧ ReachesRoot c4Graph r ⟨2⟩ r2 ∧ r ≠ r2)) ∧
        (∀ vp, find_path_between_versions 5 c4Graph ⟨1⟩ ⟨2⟩ = .ok vp →
          vp.path.head? = some ⟨1⟩ ∧ vp.path.getLast? = some ⟨2⟩ ∧
          vp.path.Chain' (parentLinked c4Graph) ∧
          ∃ m ∈ vp.path, IsNearestCommonAncestor c4Graph ⟨1⟩ ⟨2⟩ m)) :=
  ⟨c4Graph_ranked, by decide, by decide,
    c4_find_path_between_versions c4Graph Version.number 5 ⟨1⟩ ⟨2⟩ c4Graph_ranked
      (by decide) (by decide)⟩

end Feldspar
